import Mathlib

/-!
Verification of the three text-repair scripts of the Mementiq repository
(`fixAllSyntax.py`, `fix_empty_logs.py`, `fix_json_stringify.py`).

Each script reads a file, rewrites corrupted logging statements, and writes
the result back.  We embed the pure text transformation of each script over
`List Char` (file contents), modelling Python's string/regex operations
exactly:

* `str.split('\n')` / `'\n'.join` / `readlines` / `writelines`;
* `str.replace(old, new)` (left-to-right, non-overlapping);
* the specific regular expressions of the scripts.  Every regex used by the
  scripts alternates literal pieces with greedy character classes `[^c]+` or
  `[^c]*` that are immediately followed by the excluded literal character
  `c`; for such patterns Python's backtracking search is deterministic (the
  class always matches the maximal run, and failure cannot be repaired by
  backtracking, since shrinking the run makes the following literal face a
  character it can never equal), so each match attempt is a straight-line
  parse, and `re.search` / `re.sub` scan for the leftmost match position.

Scanning substitutions are implemented with an explicit fuel argument
(`scanSubF`) so that all definitions are structurally recursive and reduce
definitionally; the wrapper `scanSub` supplies `length + 1` fuel, which is
always sufficient because every matcher consumes at least one character.
-/

namespace Mementiq

/-- Strings are modelled as lists of characters. -/
abbrev Str := List Char

/-- The backtick character (written by code to avoid a raw backtick). -/
def bt : Char := '\x60'

/-- One-step matcher interface: given the current suffix of the text, a
matcher either fails or returns the replacement text to emit together with
the remaining suffix after the matched region. -/
abbrev Matcher := Str → Option (Str × Str)

/-- Fuelled left-to-right scanning substitution: at each position try the
matcher; on success emit its replacement and continue after the match, on
failure copy one character.  This is the semantics of Python's `re.sub`
(and of `str.replace`) for the deterministic patterns used by the repo. -/
def scanSubF (m : Matcher) : Nat → Str → Str
  | 0, s => s
  | _ + 1, [] => []
  | fuel + 1, c :: t =>
    match m (c :: t) with
    | some (e, rest) => e ++ scanSubF m fuel rest
    | none => c :: scanSubF m fuel t

/-- Scanning substitution with always-sufficient fuel. -/
def scanSub (m : Matcher) (s : Str) : Str := scanSubF m s.length s

/-- Strip a literal from the front of the text, returning the remainder. -/
def stripLit (lit s : Str) : Option Str :=
  if lit <+: s then some (s.drop lit.length) else none

/-- Matcher of a fixed literal pattern with a fixed replacement; `scanSub`
of this matcher is exactly Python's `str.replace(pat, rep)` (for the
nonempty patterns the scripts use). -/
def replMatcher (pat rep : Str) : Matcher := fun s =>
  match stripLit pat s with
  | some rest => if pat = [] then none else some (rep, rest)
  | none => none

/-- Python `s.replace(pat, rep)`: replace all non-overlapping occurrences,
scanning left to right. -/
def replaceAll (pat rep s : Str) : Str := scanSub (replMatcher pat rep) s

/-- Python `content.split(sep)` for a one-character separator. -/
def pySplit (sep : Char) : Str → List Str
  | [] => [[]]
  | c :: rest =>
    match pySplit sep rest with
    | [] => [[]]
    | h :: t => if c = sep then [] :: h :: t else (c :: h) :: t

/-- Join a list of strings with a separator: `sep.join(ls)` in Python. -/
def joinSep (sep : Str) : List Str → Str
  | [] => []
  | [l] => l
  | l :: l' :: ls => l ++ sep ++ joinSep sep (l' :: ls)

/-- Python `f.readlines()`: split the content after every newline
character, keeping the newline at the end of each line; a final fragment
without a newline is kept, an empty final fragment is not. -/
def pyReadLines : Str → List Str
  | [] => []
  | c :: rest =>
    if c = '\n' then ['\n'] :: pyReadLines rest
    else
      match pyReadLines rest with
      | [] => [[c]]
      | l :: ls => (c :: l) :: ls

/-- Python `s.lower()` (ASCII case mapping suffices for the texts used). -/
def lowerStr (s : Str) : Str := s.map Char.toLower

/-- The literal `${JSON.stringify(` (the wrapping-call prefix). -/
def sLit : Str := ("$\x7bJSON.stringify(").data

/-- The literal `console.log(` + backtick + `${JSON.stringify(`, i.e. the
substring tested by `fixAllSyntax.py`'s outer `in` check, and also the
literal head of `fix_json_stringify.py`'s main pattern. -/
def trig1 : Str := ("console.log(\x60$\x7bJSON.stringify(").data

/-- The literal `)} ${JSON.stringify(` tested by the inner `in` check of
`fixAllSyntax.py`. -/
def trig2 : Str := (")\x7d $\x7bJSON.stringify(").data

/-- Head literal of the double/single `re.search` patterns:
`console.log(` backtick `${JSON.stringify(` backtick. -/
def litA : Str := ("console.log(\x60$\x7bJSON.stringify(\x60").data

/-- Middle literal of the double pattern: backtick `)} ${JSON.stringify(`. -/
def litB : Str := ("\x60)\x7d $\x7bJSON.stringify(").data

/-- Tail literal of the double pattern: `)}` backtick `);`. -/
def litC : Str := (")\x7d\x60);").data

/-- Tail literal of the single pattern: backtick `)}` backtick `);`. -/
def litS : Str := ("\x60)\x7d\x60);").data

/-- Head literal of the first catch-all substitution:
`${JSON.stringify(` backtick. -/
def s1Lit : Str := ("$\x7bJSON.stringify(\x60").data

/-- Tail literal of the first catch-all substitution: backtick `)}`. -/
def s1End : Str := ("\x60)\x7d").data

/-- The literal `)}`. -/
def rbLit : Str := (")\x7d").data

/-- Six spaces: the hard-coded indentation of reconstructed lines. -/
def sixSp : Str := ("      ").data

/-- The literal `console.log(` followed by a backtick. -/
def cLogBt : Str := ("console.log(\x60").data

/-- The literal backtick `);`. -/
def endBt : Str := ("\x60);").data

/-- Attempt, at the current position, the double-stringify pattern
`console\.log\(` ``​ `\$\{JSON\.stringify\(` ``​ `([^`]+)` ``​ `\)\} \$\{JSON\.stringify\(([^)]+)\)\}` ``​ `\);`
returning the two groups and the remainder after the match. -/
def matchDoubleAt (s : Str) : Option (Str × Str × Str) :=
  match stripLit litA s with
  | none => none
  | some r1 =>
    let g1 := r1.takeWhile (fun c => c != bt)
    let r2 := r1.dropWhile (fun c => c != bt)
    if g1 = [] then none else
    match stripLit litB r2 with
    | none => none
    | some r3 =>
      let g2 := r3.takeWhile (fun c => c != ')')
      let r4 := r3.dropWhile (fun c => c != ')')
      if g2 = [] then none else
      match stripLit litC r4 with
      | none => none
      | some rest => some (g1, g2, rest)

/-- Attempt, at the current position, the single-stringify pattern,
returning the group and the remainder after the match. -/
def matchSingleAt (s : Str) : Option (Str × Str) :=
  match stripLit litA s with
  | none => none
  | some r1 =>
    let g := r1.takeWhile (fun c => c != bt)
    let r2 := r1.dropWhile (fun c => c != bt)
    if g = [] then none else
    match stripLit litS r2 with
    | none => none
    | some rest => some (g, rest)

/-- `re.search` for the double pattern: try every start position from the
left; also return the text before the match. -/
def searchDouble : Str → Option (Str × Str × Str × Str)
  | [] =>
    match matchDoubleAt [] with
    | some (g1, g2, rest) => some ([], g1, g2, rest)
    | none => none
  | c :: t =>
    match matchDoubleAt (c :: t) with
    | some (g1, g2, rest) => some ([], g1, g2, rest)
    | none =>
      match searchDouble t with
      | some (p, g1, g2, rest) => some (c :: p, g1, g2, rest)
      | none => none

/-- `re.search` for the single pattern. -/
def searchSingle : Str → Option (Str × Str × Str)
  | [] =>
    match matchSingleAt [] with
    | some (g, rest) => some ([], g, rest)
    | none => none
  | c :: t =>
    match matchSingleAt (c :: t) with
    | some (g, rest) => some ([], g, rest)
    | none =>
      match searchSingle t with
      | some (p, g, rest) => some (c :: p, g, rest)
      | none => none

/-- Matcher of the first catch-all substitution
`\$\{JSON\.stringify\(` ``​ `([^`]+)` ``​ `\)\}` with replacement the group. -/
def matchSub1At : Matcher := fun s =>
  match stripLit s1Lit s with
  | none => none
  | some r1 =>
    let g := r1.takeWhile (fun c => c != bt)
    let r2 := r1.dropWhile (fun c => c != bt)
    if g = [] then none else
    match stripLit s1End r2 with
    | none => none
    | some rest => some (g, rest)

/-- Matcher of the second catch-all substitution
`\$\{JSON\.stringify\(([^)]+)\)\}` with replacement the group. -/
def matchSub2At : Matcher := fun s =>
  match stripLit sLit s with
  | none => none
  | some r1 =>
    let g := r1.takeWhile (fun c => c != ')')
    let r2 := r1.dropWhile (fun c => c != ')')
    if g = [] then none else
    match stripLit rbLit r2 with
    | none => none
    | some rest => some (g, rest)

/-- First catch-all substitution of `fixAllSyntax.py`. -/
def subAll1 (s : Str) : Str := scanSub matchSub1At s

/-- Second catch-all substitution of `fixAllSyntax.py`. -/
def subAll2 (s : Str) : Str := scanSub matchSub2At s

/-- The cleanup `.replace('`)}', '').replace('`', '')` applied to the
second captured group in the double branch. -/
def cleanupG2 (g : Str) : Str := replaceAll [bt] [] (replaceAll s1End [] g)

/-- The per-line transformation of `fixAllSyntax.py`: the conditional
double or single pattern reconstruction, followed by the two catch-all
substitutions. -/
def fixAllLine (line : Str) : Str :=
  let l1 :=
    if trig1 <:+: line then
      if trig2 <:+: line then
        match searchDouble line with
        | some (_, g1, g2, _) =>
          sixSp ++ cLogBt ++ g1 ++ [' '] ++ cleanupG2 g2 ++ endBt
        | none => line
      else
        match searchSingle line with
        | some (_, g, _) => sixSp ++ cLogBt ++ g ++ endBt
        | none => line
    else line
  subAll2 (subAll1 l1)

/-- The whole-content transformation of `fixAllSyntax.py`:
split on newlines, fix each line, join with newlines. -/
def fixAllSyntax (content : Str) : Str :=
  joinSep ['\n'] ((pySplit '\n' content).map fixAllLine)

/-- The empty logging call `console.log()`. -/
def pLog : Str := ("console.log()").data

/-- Replacement used after a found/created/updated context line. -/
def repSuccess : Str := ("console.log(\"Operation completed successfully\")").data

/-- Replacement used after an error/failure context line. -/
def repError : Str := ("console.log(\"Error logged\")").data

/-- Default replacement. -/
def repProcessing : Str := ("console.log(\"Processing...\")").data

/-- Keyword `Found`. -/
def kwFound : Str := ("Found").data

/-- Keyword `Created`. -/
def kwCreated : Str := ("Created").data

/-- Keyword `Updated`. -/
def kwUpdated : Str := ("Updated").data

/-- Keyword `error` (compared against the lowered previous line). -/
def kwError : Str := ("error").data

/-- Keyword `fail` (compared against the lowered previous line). -/
def kwFail : Str := ("fail").data

/-- The message selection of `fix_empty_logs.py` from the previous line
(`none` when the line is the first line of the file). -/
def msgFor : Option Str → Str
  | none => repProcessing
  | some p =>
    if kwFound <:+: p ∨ kwCreated <:+: p ∨ kwUpdated <:+: p then repSuccess
    else if kwError <:+: lowerStr p ∨ kwFail <:+: lowerStr p then repError
    else repProcessing

/-- One step of `fix_empty_logs.py`'s loop on a single line, given the
(previously processed) preceding line. -/
def fixEmptyLine (prev : Option Str) (l : Str) : Str :=
  if pLog <:+: l then replaceAll pLog (msgFor prev) l else l

/-- The loop of `fix_empty_logs.py`: each line is rewritten in place, and
the *rewritten* previous line is what the next iteration inspects. -/
def fixEmptyAux : Option Str → List Str → List Str
  | _, [] => []
  | prev, l :: rest =>
    let l' := fixEmptyLine prev l
    l' :: fixEmptyAux (some l') rest

/-- The line-list transformation of `fix_empty_logs.py`. -/
def fixEmptyLines (ls : List Str) : List Str := fixEmptyAux none ls

/-- The whole-content transformation of `fix_empty_logs.py`:
`readlines`, rewrite, `writelines` (concatenation). -/
def fix_empty_logs (content : Str) : Str :=
  (fixEmptyLines (pyReadLines content)).flatten

/-- Matcher of the main pattern of `fix_json_stringify.py`:
`console\.log\(` ``​ `\$\{JSON\.stringify\([^)]*\)\}[^`]*` ``​ `\);`,
returning the whole matched text and the remainder. -/
def matchJsonAt (s : Str) : Option (Str × Str) :=
  match stripLit trig1 s with
  | none => none
  | some r1 =>
    let x := r1.takeWhile (fun c => c != ')')
    let r2 := r1.dropWhile (fun c => c != ')')
    match stripLit rbLit r2 with
    | none => none
    | some r3 =>
      let y := r3.takeWhile (fun c => c != bt)
      let r4 := r3.dropWhile (fun c => c != bt)
      match stripLit endBt r4 with
      | none => none
      | some rest => some (trig1 ++ x ++ rbLit ++ y ++ endBt, rest)

/-- Matcher of the inner cleanup substitution of `fix_console_log`:
backtick `([^`]+)` backtick `\)\}[^`]*` backtick, replaced by
backtick group backtick. -/
def matchStep3At : Matcher := fun s =>
  match stripLit [bt] s with
  | none => none
  | some r1 =>
    let g := r1.takeWhile (fun c => c != bt)
    let r2 := r1.dropWhile (fun c => c != bt)
    if g = [] then none else
    match stripLit s1End r2 with
    | none => none
    | some r3 =>
      let r4 := r3.dropWhile (fun c => c != bt)
      match stripLit [bt] r4 with
      | none => none
      | some rest => some (bt :: g ++ [bt], rest)

/-- The replacement function `fix_console_log` of `fix_json_stringify.py`,
applied to a matched text. -/
def fix_console_log (t : Str) : Str :=
  scanSub matchStep3At (replaceAll rbLit [] (replaceAll sLit [] t))

/-- The main substitution of `fix_json_stringify.py` as a matcher: the
matched text is rewritten by `fix_console_log`. -/
def jsonMainMatcher : Matcher := fun s =>
  match matchJsonAt s with
  | some (m, rest) => some (fix_console_log m, rest)
  | none => none

/-- Tail literal of the "additional specific fix" pattern:
`)` backtick `)}` backtick `);`. -/
def litF : Str := (")\x60)\x7d\x60);").data

/-- Matcher of the "additional specific fix" of `fix_json_stringify.py`:
`console\.log\(` ``​ `\$\{JSON\.stringify\(` ``​ `([^`]+)` ``​ `\)\} \$\{JSON\.stringify\(([^)]+)\)` ``​ `\)\}` ``​ `\);`
with replacement `console.log(` backtick `\1 \2` backtick `);`. -/
def matchFourthAt : Matcher := fun s =>
  match stripLit litA s with
  | none => none
  | some r1 =>
    let g1 := r1.takeWhile (fun c => c != bt)
    let r2 := r1.dropWhile (fun c => c != bt)
    if g1 = [] then none else
    match stripLit litB r2 with
    | none => none
    | some r3 =>
      let g2 := r3.takeWhile (fun c => c != ')')
      let r4 := r3.dropWhile (fun c => c != ')')
      if g2 = [] then none else
      match stripLit litF r4 with
      | none => none
      | some rest => some (cLogBt ++ g1 ++ [' '] ++ g2 ++ endBt, rest)

/-- The whole-content transformation of `fix_json_stringify.py`. -/
def fix_json_stringify (content : Str) : Str :=
  scanSub matchFourthAt (scanSub jsonMainMatcher content)

/-- Number of newline-separated lines of a content string. -/
def numLines (content : Str) : Nat := (pySplit '\n' content).length

/-- Two lists overlap when some nonempty suffix of the first equals a
prefix of the second. -/
def Overlaps (a b : Str) : Prop :=
  ∃ n, 0 < n ∧ n ≤ a.length ∧ n ≤ b.length ∧ a.drop (a.length - n) = b.take n

/-- Independence of a keyword from a pattern: neither contains the other
and they cannot overlap; occurrences of the two in any string are then
disjoint. -/
def SepFrom (k p : Str) : Prop :=
  ¬ k <:+: p ∧ ¬ p <:+: k ∧ ¬ Overlaps k p ∧ ¬ Overlaps p k

/-- A matcher consumes at least one character whenever it succeeds; all
matchers of the scripts do, which makes `length` fuel sufficient. -/
def Consumes (m : Matcher) : Prop :=
  ∀ s e rest, m s = some (e, rest) → rest.length < s.length

/-- Emitted text and remainder of a matcher draw their characters from the
input suffix. -/
def SubsetEmit (m : Matcher) : Prop :=
  ∀ s e rest, m s = some (e, rest) → (∀ x ∈ e, x ∈ s) ∧ (∀ x ∈ rest, x ∈ s)

/-- A line as produced by `readlines` in non-final position: it ends with a
newline and contains no other newline. -/
def IsNlLine (l : Str) : Prop := ∃ l', l = l' ++ ['\n'] ∧ '\n' ∉ l'

/-- A line as produced by `readlines` in final position: nonempty, and any
newline it contains is a single trailing one. -/
def IsTailLine (l : Str) : Prop := l ≠ [] ∧ ('\n' ∉ l ∨ IsNlLine l)

/-- Characterization of the lists of lines produced by `readlines`. -/
def ValidLines : List Str → Prop
  | [] => True
  | [l] => IsTailLine l
  | l :: ls => IsNlLine l ∧ ValidLines ls

instance (a b : Str) : Decidable (Overlaps a b) :=
  decidable_of_iff
    (((List.range (a.length + 1)).any fun n =>
      decide (0 < n) && decide (n ≤ a.length) && decide (n ≤ b.length) &&
        decide (a.drop (a.length - n) = b.take n)) = true)
    (by
      rw [List.any_eq_true]
      constructor
      · rintro ⟨n, _, hp⟩
        simp only [Bool.and_eq_true, decide_eq_true_eq] at hp
        exact ⟨n, hp.1.1.1, hp.1.1.2, hp.1.2, hp.2⟩
      · rintro ⟨n, h1, h2, h3, h4⟩
        exact ⟨n, List.mem_range.mpr (Nat.lt_succ_of_le h2), by simp [h1, h2, h3, h4]⟩)

/- ===================== theorems from here on ===================== -/

theorem stripLit_some {lit s r : Str} : stripLit lit s = some r ↔ s = lit ++ r := by
  constructor
  · intro h
    unfold stripLit at h
    split at h
    · next hp =>
      obtain ⟨t, rfl⟩ := hp
      rw [List.drop_left] at h
      exact (Option.some.injEq ..).mp h ▸ rfl
    · exact absurd h (by simp)
  · rintro rfl
    unfold stripLit
    rw [if_pos (List.prefix_append lit r), List.drop_left]

theorem stripLit_self (lit : Str) (r : Str) : stripLit lit (lit ++ r) = some r :=
  stripLit_some.mpr rfl

theorem scanSubF_congr {m : Matcher} (hm : Consumes m) :
    ∀ f₁ f₂ s, s.length ≤ f₁ → s.length ≤ f₂ → scanSubF m f₁ s = scanSubF m f₂ s := by
  intro f₁
  induction f₁ with
  | zero =>
    intro f₂ s h1 _
    obtain rfl : s = [] := List.eq_nil_of_length_eq_zero (Nat.le_zero.mp h1)
    cases f₂ <;> rfl
  | succ f ih =>
    intro f₂ s h1 h2
    match s with
    | [] => cases f₂ <;> rfl
    | c :: t =>
      obtain ⟨f₂', rfl⟩ : ∃ f₂', f₂ = f₂' + 1 := by
        cases f₂ with
        | zero => exact absurd h2 (by simp)
        | succ k => exact ⟨k, rfl⟩
      show scanSubF m (f + 1) (c :: t) = scanSubF m (f₂' + 1) (c :: t)
      simp only [scanSubF]
      cases hm' : m (c :: t) with
      | some er =>
        obtain ⟨e, rest⟩ := er
        have hlt := hm _ _ _ hm'
        have hr1 : rest.length ≤ f := Nat.lt_succ_iff.mp (Nat.lt_of_lt_of_le hlt h1)
        have hr2 : rest.length ≤ f₂' := Nat.lt_succ_iff.mp (Nat.lt_of_lt_of_le hlt h2)
        show e ++ scanSubF m f rest = e ++ scanSubF m f₂' rest
        rw [ih f₂' rest hr1 hr2]
      | none =>
        have ht1 : t.length ≤ f := Nat.lt_succ_iff.mp h1
        have ht2 : t.length ≤ f₂' := Nat.lt_succ_iff.mp h2
        show c :: scanSubF m f t = c :: scanSubF m f₂' t
        rw [ih f₂' t ht1 ht2]

theorem scanSub_nil {m : Matcher} : scanSub m [] = [] := rfl

theorem scanSub_match {m : Matcher} (hm : Consumes m) {c : Char} {t e rest : Str}
    (h : m (c :: t) = some (e, rest)) : scanSub m (c :: t) = e ++ scanSub m rest := by
  show scanSubF m (t.length + 1) (c :: t) = e ++ scanSub m rest
  simp only [scanSubF, h]
  have hlt := hm _ _ _ h
  rw [scanSubF_congr hm t.length rest.length rest (Nat.lt_succ_iff.mp hlt) le_rfl]
  rfl

theorem scanSub_no {m : Matcher} (_hm : Consumes m) {c : Char} {t : Str}
    (h : m (c :: t) = none) : scanSub m (c :: t) = c :: scanSub m t := by
  show scanSubF m (t.length + 1) (c :: t) = c :: scanSub m t
  simp only [scanSubF, h]
  rfl

theorem ne_of_mem_takeWhile {c0 : Char} {l : Str} :
    ∀ c ∈ l.takeWhile (fun c => c != c0), c ≠ c0 := by
  intro c hc
  simpa [bne_iff_ne] using List.mem_takeWhile_imp hc

theorem takeWhile_dropWhile_decomp (p : Char → Bool) (l : Str) :
    l = l.takeWhile p ++ l.dropWhile p := (List.takeWhile_append_dropWhile p l).symm

theorem replMatcher_some {pat rep s e rest : Str}
    (h : replMatcher pat rep s = some (e, rest)) :
    e = rep ∧ pat ≠ [] ∧ s = pat ++ rest := by
  unfold replMatcher at h
  cases hA : stripLit pat s with
  | none => rw [hA] at h; exact Option.noConfusion h
  | some r =>
    rw [hA] at h
    dsimp only at h
    by_cases hp : pat = []
    · rw [if_pos hp] at h; exact Option.noConfusion h
    · rw [if_neg hp] at h
      obtain ⟨he, hr⟩ : rep = e ∧ r = rest := by simpa using h
      exact ⟨he.symm, hp, hr ▸ stripLit_some.mp hA⟩

theorem replMatcher_none {pat rep s : Str}
    (h : ¬ pat <+: s) : replMatcher pat rep s = none := by
  unfold replMatcher
  cases hA : stripLit pat s with
  | none => rfl
  | some r =>
    exact absurd ⟨r, (stripLit_some.mp hA).symm⟩ h

theorem consumes_replMatcher {pat rep : Str} : Consumes (replMatcher pat rep) := by
  intro s e rest h
  obtain ⟨-, hp, rfl⟩ := replMatcher_some h
  have : 0 < pat.length := List.length_pos.mpr hp
  rw [List.length_append]
  omega

theorem matchSub1At_some {s e rest : Str} (h : matchSub1At s = some (e, rest)) :
    s = s1Lit ++ e ++ s1End ++ rest ∧ e ≠ [] ∧ (∀ c ∈ e, c ≠ bt) := by
  unfold matchSub1At at h
  cases hA : stripLit s1Lit s with
  | none => rw [hA] at h; exact Option.noConfusion h
  | some r1 =>
    rw [hA] at h
    dsimp only at h
    by_cases hg : r1.takeWhile (fun c => c != bt) = []
    · rw [if_pos hg] at h; exact Option.noConfusion h
    · rw [if_neg hg] at h
      cases hB : stripLit s1End (r1.dropWhile (fun c => c != bt)) with
      | none => rw [hB] at h; exact Option.noConfusion h
      | some rest' =>
        rw [hB] at h
        obtain ⟨hge, hre⟩ : r1.takeWhile (fun c => c != bt) = e ∧ rest' = rest := by
          simpa using h
        refine ⟨?_, hge ▸ hg, hge ▸ ne_of_mem_takeWhile⟩
        rw [stripLit_some.mp hA, takeWhile_dropWhile_decomp (fun c => c != bt) r1,
          stripLit_some.mp hB, hge, hre]
        simp [List.append_assoc]

theorem consumes_matchSub1At : Consumes matchSub1At := by
  intro s e rest h
  obtain ⟨rfl, -, -⟩ := matchSub1At_some h
  have h1 : 0 < s1Lit.length := by decide
  simp only [List.length_append]
  omega

theorem matchSub2At_some {s e rest : Str} (h : matchSub2At s = some (e, rest)) :
    s = sLit ++ e ++ rbLit ++ rest ∧ e ≠ [] ∧ (∀ c ∈ e, c ≠ ')') := by
  unfold matchSub2At at h
  cases hA : stripLit sLit s with
  | none => rw [hA] at h; exact Option.noConfusion h
  | some r1 =>
    rw [hA] at h
    dsimp only at h
    by_cases hg : r1.takeWhile (fun c => c != ')') = []
    · rw [if_pos hg] at h; exact Option.noConfusion h
    · rw [if_neg hg] at h
      cases hB : stripLit rbLit (r1.dropWhile (fun c => c != ')')) with
      | none => rw [hB] at h; exact Option.noConfusion h
      | some rest' =>
        rw [hB] at h
        obtain ⟨hge, hre⟩ : r1.takeWhile (fun c => c != ')') = e ∧ rest' = rest := by
          simpa using h
        refine ⟨?_, hge ▸ hg, hge ▸ ne_of_mem_takeWhile⟩
        rw [stripLit_some.mp hA, takeWhile_dropWhile_decomp (fun c => c != ')') r1,
          stripLit_some.mp hB, hge, hre]
        simp [List.append_assoc]

theorem consumes_matchSub2At : Consumes matchSub2At := by
  intro s e rest h
  obtain ⟨rfl, -, -⟩ := matchSub2At_some h
  have h1 : 0 < sLit.length := by decide
  simp only [List.length_append]
  omega

theorem matchDoubleAt_some {s g1 g2 rest : Str}
    (h : matchDoubleAt s = some (g1, g2, rest)) :
    s = litA ++ g1 ++ litB ++ g2 ++ litC ++ rest ∧
      g1 ≠ [] ∧ (∀ c ∈ g1, c ≠ bt) ∧ g2 ≠ [] ∧ (∀ c ∈ g2, c ≠ ')') := by
  unfold matchDoubleAt at h
  cases hA : stripLit litA s with
  | none => rw [hA] at h; exact Option.noConfusion h
  | some r1 =>
    rw [hA] at h
    dsimp only at h
    by_cases hg1 : r1.takeWhile (fun c => c != bt) = []
    · rw [if_pos hg1] at h; exact Option.noConfusion h
    · rw [if_neg hg1] at h
      cases hB : stripLit litB (r1.dropWhile (fun c => c != bt)) with
      | none => rw [hB] at h; exact Option.noConfusion h
      | some r3 =>
        rw [hB] at h
        dsimp only at h
        by_cases hg2 : r3.takeWhile (fun c => c != ')') = []
        · rw [if_pos hg2] at h; exact Option.noConfusion h
        · rw [if_neg hg2] at h
          cases hC : stripLit litC (r3.dropWhile (fun c => c != ')')) with
          | none => rw [hC] at h; exact Option.noConfusion h
          | some rest' =>
            rw [hC] at h
            obtain ⟨h1, h2, h3⟩ :
                r1.takeWhile (fun c => c != bt) = g1 ∧
                  r3.takeWhile (fun c => c != ')') = g2 ∧ rest' = rest := by
              simpa using h
            refine ⟨?_, h1 ▸ hg1, h1 ▸ ne_of_mem_takeWhile, h2 ▸ hg2,
              h2 ▸ ne_of_mem_takeWhile⟩
            rw [stripLit_some.mp hA, takeWhile_dropWhile_decomp (fun c => c != bt) r1,
              stripLit_some.mp hB, takeWhile_dropWhile_decomp (fun c => c != ')') r3,
              stripLit_some.mp hC, h1, h2, h3]
            simp [List.append_assoc]

theorem consumes_matchDoubleAt :
    ∀ s g1 g2 rest, matchDoubleAt s = some (g1, g2, rest) → rest.length < s.length := by
  intro s g1 g2 rest h
  obtain ⟨rfl, -, -, -, -⟩ := matchDoubleAt_some h
  have h1 : 0 < litA.length := by decide
  simp only [List.length_append]
  omega

theorem matchSingleAt_some {s g rest : Str} (h : matchSingleAt s = some (g, rest)) :
    s = litA ++ g ++ litS ++ rest ∧ g ≠ [] ∧ (∀ c ∈ g, c ≠ bt) := by
  unfold matchSingleAt at h
  cases hA : stripLit litA s with
  | none => rw [hA] at h; exact Option.noConfusion h
  | some r1 =>
    rw [hA] at h
    dsimp only at h
    by_cases hg : r1.takeWhile (fun c => c != bt) = []
    · rw [if_pos hg] at h; exact Option.noConfusion h
    · rw [if_neg hg] at h
      cases hB : stripLit litS (r1.dropWhile (fun c => c != bt)) with
      | none => rw [hB] at h; exact Option.noConfusion h
      | some rest' =>
        rw [hB] at h
        obtain ⟨hge, hre⟩ : r1.takeWhile (fun c => c != bt) = g ∧ rest' = rest := by
          simpa using h
        refine ⟨?_, hge ▸ hg, hge ▸ ne_of_mem_takeWhile⟩
        rw [stripLit_some.mp hA, takeWhile_dropWhile_decomp (fun c => c != bt) r1,
          stripLit_some.mp hB, hge, hre]
        simp [List.append_assoc]

theorem searchDouble_some {s p g1 g2 rest : Str}
    (h : searchDouble s = some (p, g1, g2, rest)) :
    s = p ++ litA ++ g1 ++ litB ++ g2 ++ litC ++ rest ∧
      g1 ≠ [] ∧ (∀ c ∈ g1, c ≠ bt) ∧ g2 ≠ [] ∧ (∀ c ∈ g2, c ≠ ')') := by
  induction s generalizing p with
  | nil =>
    unfold searchDouble at h
    have hm : matchDoubleAt [] = none := by decide
    rw [hm] at h
    exact Option.noConfusion h
  | cons c t ih =>
    unfold searchDouble at h
    cases hm : matchDoubleAt (c :: t) with
    | some g =>
      obtain ⟨g1', g2', rest'⟩ := g
      rw [hm] at h
      obtain ⟨hp, h1, h2, h3⟩ : [] = p ∧ g1' = g1 ∧ g2' = g2 ∧ rest' = rest := by
        simpa using h
      obtain ⟨hs, hne1, hmem1, hne2, hmem2⟩ :=
        matchDoubleAt_some (h1 ▸ h2 ▸ h3 ▸ hm)
      exact ⟨by rw [← hp, hs]; simp, hne1, hmem1, hne2, hmem2⟩
    | none =>
      rw [hm] at h
      cases hs : searchDouble t with
      | none => rw [hs] at h; exact Option.noConfusion h
      | some q =>
        obtain ⟨p', g1', g2', rest'⟩ := q
        rw [hs] at h
        obtain ⟨hp, h1, h2, h3⟩ : c :: p' = p ∧ g1' = g1 ∧ g2' = g2 ∧ rest' = rest := by
          simpa using h
        obtain ⟨ht, hne1, hmem1, hne2, hmem2⟩ := ih (h1 ▸ h2 ▸ h3 ▸ hs)
        exact ⟨by rw [← hp, ht]; simp [List.append_assoc], hne1, hmem1, hne2, hmem2⟩

theorem searchSingle_some {s p g rest : Str}
    (h : searchSingle s = some (p, g, rest)) :
    s = p ++ litA ++ g ++ litS ++ rest ∧ g ≠ [] ∧ (∀ c ∈ g, c ≠ bt) := by
  induction s generalizing p with
  | nil =>
    unfold searchSingle at h
    have hm : matchSingleAt [] = none := by decide
    rw [hm] at h
    exact Option.noConfusion h
  | cons c t ih =>
    unfold searchSingle at h
    cases hm : matchSingleAt (c :: t) with
    | some g' =>
      obtain ⟨g1', rest'⟩ := g'
      rw [hm] at h
      obtain ⟨hp, h1, h2⟩ : [] = p ∧ g1' = g ∧ rest' = rest := by simpa using h
      obtain ⟨hs, hne, hmem⟩ := matchSingleAt_some (h1 ▸ h2 ▸ hm)
      exact ⟨by rw [← hp, hs]; simp, hne, hmem⟩
    | none =>
      rw [hm] at h
      cases hs : searchSingle t with
      | none => rw [hs] at h; exact Option.noConfusion h
      | some q =>
        obtain ⟨p', g1', rest'⟩ := q
        rw [hs] at h
        obtain ⟨hp, h1, h2⟩ : c :: p' = p ∧ g1' = g ∧ rest' = rest := by simpa using h
        obtain ⟨ht, hne, hmem⟩ := ih (h1 ▸ h2 ▸ hs)
        exact ⟨by rw [← hp, ht]; simp [List.append_assoc], hne, hmem⟩

theorem matchJsonAt_some {s m rest : Str} (h : matchJsonAt s = some (m, rest)) :
    ∃ x y, m = trig1 ++ x ++ rbLit ++ y ++ endBt ∧ s = m ++ rest ∧
      (∀ c ∈ x, c ≠ ')') ∧ (∀ c ∈ y, c ≠ bt) := by
  unfold matchJsonAt at h
  cases hA : stripLit trig1 s with
  | none => rw [hA] at h; exact Option.noConfusion h
  | some r1 =>
    rw [hA] at h
    dsimp only at h
    cases hB : stripLit rbLit (r1.dropWhile (fun c => c != ')')) with
    | none => rw [hB] at h; exact Option.noConfusion h
    | some r3 =>
      rw [hB] at h
      dsimp only at h
      cases hC : stripLit endBt (r3.dropWhile (fun c => c != bt)) with
      | none => rw [hC] at h; exact Option.noConfusion h
      | some rest' =>
        rw [hC] at h
        obtain ⟨hm, hre⟩ :
            trig1 ++ r1.takeWhile (fun c => c != ')') ++ rbLit ++
              r3.takeWhile (fun c => c != bt) ++ endBt = m ∧ rest' = rest := by
          simpa using h
        refine ⟨r1.takeWhile (fun c => c != ')'), r3.takeWhile (fun c => c != bt),
          hm.symm, ?_, ne_of_mem_takeWhile, ne_of_mem_takeWhile⟩
        rw [stripLit_some.mp hA, takeWhile_dropWhile_decomp (fun c => c != ')') r1,
          stripLit_some.mp hB, takeWhile_dropWhile_decomp (fun c => c != bt) r3,
          stripLit_some.mp hC, ← hm, hre]
        simp [List.append_assoc]

theorem consumes_jsonMainMatcher : Consumes jsonMainMatcher := by
  intro s e rest h
  unfold jsonMainMatcher at h
  cases hm : matchJsonAt s with
  | none => rw [hm] at h; exact Option.noConfusion h
  | some mr =>
    obtain ⟨m, rest'⟩ := mr
    rw [hm] at h
    obtain ⟨-, hre⟩ : fix_console_log m = e ∧ rest' = rest := by simpa using h
    obtain ⟨x, y, hmv, hs, -, -⟩ := matchJsonAt_some hm
    rw [hs, hmv, ← hre]
    have h1 : 0 < trig1.length := by decide
    simp only [List.length_append]
    omega

theorem matchStep3At_some {s e rest : Str} (h : matchStep3At s = some (e, rest)) :
    ∃ g y, e = bt :: g ++ [bt] ∧ g ≠ [] ∧ (∀ c ∈ g, c ≠ bt) ∧ (∀ c ∈ y, c ≠ bt) ∧
      s = [bt] ++ g ++ s1End ++ y ++ [bt] ++ rest := by
  unfold matchStep3At at h
  cases hA : stripLit [bt] s with
  | none => rw [hA] at h; exact Option.noConfusion h
  | some r1 =>
    rw [hA] at h
    dsimp only at h
    by_cases hg : r1.takeWhile (fun c => c != bt) = []
    · rw [if_pos hg] at h; exact Option.noConfusion h
    · rw [if_neg hg] at h
      cases hB : stripLit s1End (r1.dropWhile (fun c => c != bt)) with
      | none => rw [hB] at h; exact Option.noConfusion h
      | some r3 =>
        rw [hB] at h
        dsimp only at h
        cases hC : stripLit [bt] (r3.dropWhile (fun c => c != bt)) with
        | none => rw [hC] at h; exact Option.noConfusion h
        | some rest' =>
          rw [hC] at h
          obtain ⟨he, hre⟩ :
              bt :: r1.takeWhile (fun c => c != bt) ++ [bt] = e ∧ rest' = rest := by
            simpa using h
          set g := r1.takeWhile (fun c => c != bt) with hgdef
          set y := r3.takeWhile (fun c => c != bt) with hydef
          have hr1 : r1 = g ++ (s1End ++ r3) := by
            rw [hgdef, ← stripLit_some.mp hB]
            exact takeWhile_dropWhile_decomp (fun c => c != bt) r1
          have hr3 : r3 = y ++ ([bt] ++ rest) := by
            rw [hydef, ← hre, ← stripLit_some.mp hC]
            exact takeWhile_dropWhile_decomp (fun c => c != bt) r3
          refine ⟨g, y, he.symm, hg, hgdef ▸ ne_of_mem_takeWhile,
            hydef ▸ ne_of_mem_takeWhile, ?_⟩
          rw [stripLit_some.mp hA, hr1, hr3]
          simp [List.append_assoc]

theorem consumes_matchStep3At : Consumes matchStep3At := by
  intro s e rest h
  obtain ⟨g, y, -, -, -, -, rfl⟩ := matchStep3At_some h
  simp only [List.length_append, List.length_cons, List.length_nil]
  omega

theorem matchFourthAt_some {s e rest : Str} (h : matchFourthAt s = some (e, rest)) :
    ∃ g1 g2, e = cLogBt ++ g1 ++ [' '] ++ g2 ++ endBt ∧
      s = litA ++ g1 ++ litB ++ g2 ++ litF ++ rest ∧
      g1 ≠ [] ∧ (∀ c ∈ g1, c ≠ bt) ∧ g2 ≠ [] ∧ (∀ c ∈ g2, c ≠ ')') := by
  unfold matchFourthAt at h
  cases hA : stripLit litA s with
  | none => rw [hA] at h; exact Option.noConfusion h
  | some r1 =>
    rw [hA] at h
    dsimp only at h
    by_cases hg1 : r1.takeWhile (fun c => c != bt) = []
    · rw [if_pos hg1] at h; exact Option.noConfusion h
    · rw [if_neg hg1] at h
      cases hB : stripLit litB (r1.dropWhile (fun c => c != bt)) with
      | none => rw [hB] at h; exact Option.noConfusion h
      | some r3 =>
        rw [hB] at h
        dsimp only at h
        by_cases hg2 : r3.takeWhile (fun c => c != ')') = []
        · rw [if_pos hg2] at h; exact Option.noConfusion h
        · rw [if_neg hg2] at h
          cases hC : stripLit litF (r3.dropWhile (fun c => c != ')')) with
          | none => rw [hC] at h; exact Option.noConfusion h
          | some rest' =>
            rw [hC] at h
            obtain ⟨he, hre⟩ :
                cLogBt ++ r1.takeWhile (fun c => c != bt) ++ [' '] ++
                  r3.takeWhile (fun c => c != ')') ++ endBt = e ∧ rest' = rest := by
              simpa using h
            set g1 := r1.takeWhile (fun c => c != bt) with hg1def
            set g2 := r3.takeWhile (fun c => c != ')') with hg2def
            have hr1 : r1 = g1 ++ (litB ++ r3) := by
              rw [hg1def, ← stripLit_some.mp hB]
              exact takeWhile_dropWhile_decomp (fun c => c != bt) r1
            have hr3 : r3 = g2 ++ (litF ++ rest) := by
              rw [hg2def, ← hre, ← stripLit_some.mp hC]
              exact takeWhile_dropWhile_decomp (fun c => c != ')') r3
            refine ⟨g1, g2, he.symm, ?_, hg1, hg1def ▸ ne_of_mem_takeWhile,
              hg2, hg2def ▸ ne_of_mem_takeWhile⟩
            rw [stripLit_some.mp hA, hr1, hr3]
            simp [List.append_assoc]

theorem consumes_matchFourthAt : Consumes matchFourthAt := by
  intro s e rest h
  obtain ⟨g1, g2, -, rfl, -, -, -, -⟩ := matchFourthAt_some h
  have h1 : 0 < litA.length := by decide
  simp only [List.length_append]
  omega

theorem infix_append_split {k A B : Str} (h : k <:+: A ++ B) :
    k <:+: A ∨ k <:+: B ∨
      ∃ k₁ k₂, k = k₁ ++ k₂ ∧ k₁ ≠ [] ∧ k₂ ≠ [] ∧ k₁ <:+ A ∧ k₂ <+: B := by
  obtain ⟨u, v, huv⟩ := h
  rcases List.append_eq_append_iff.mp huv with ⟨a', hA, _⟩ | ⟨c', huk, hB⟩
  · exact Or.inl ⟨u, a', hA.symm⟩
  · rcases List.append_eq_append_iff.mp huk with ⟨a2, hA2, hk⟩ | ⟨c2, _, hc2⟩
    · by_cases ha2 : a2 = []
      · subst ha2
        rw [List.nil_append] at hk
        exact Or.inr (Or.inl (hk ▸ hB ▸ (List.prefix_append c' v).isInfix))
      · by_cases hc' : c' = []
        · subst hc'
          rw [List.append_nil] at hk
          exact Or.inl (hk ▸ hA2 ▸ (List.suffix_append u a2).isInfix)
        · exact Or.inr (Or.inr ⟨a2, c', hk, ha2, hc', ⟨u, hA2.symm⟩, ⟨v, hB.symm⟩⟩)
    · refine Or.inr (Or.inl ⟨c2, v, ?_⟩)
      rw [hB, hc2]

theorem overlaps_intro {a b w : Str} (hw : w ≠ []) (hs : w <:+ a)
    (hp : w <+: b) : Overlaps a b := by
  obtain ⟨t, ht⟩ := hs
  obtain ⟨t2, ht2⟩ := hp
  refine ⟨w.length, List.length_pos.mpr hw, List.IsSuffix.length_le ⟨t, ht⟩,
    List.IsPrefix.length_le ⟨t2, ht2⟩, ?_⟩
  have h1 : a.length - w.length = t.length := by
    have := congrArg List.length ht
    simp only [List.length_append] at this
    omega
  rw [h1, ← ht, List.drop_left, ← ht2, List.take_left]

theorem infix_sep_split {k sep A B : Str} (hk : k ≠ []) (h1 : ¬ k <:+: sep)
    (h2 : ¬ sep <:+: k) (h3 : ¬ Overlaps k sep) (h4 : ¬ Overlaps sep k)
    (h : k <:+: A ++ sep ++ B) : k <:+: A ∨ k <:+: B := by
  have h' : k <:+: A ++ (sep ++ B) := by rwa [← List.append_assoc]
  rcases infix_append_split h' with hA | hrest | ⟨k₁, k₂, hkk, hne1, hne2, hsuf, hpre⟩
  · exact Or.inl hA
  · rcases infix_append_split hrest with hsep | hB | ⟨k₁, k₂, hkk, hne1, hne2, hsuf, hpre⟩
    · exact absurd hsep h1
    · exact Or.inr hB
    · exact absurd (overlaps_intro hne1 hsuf (hkk ▸ List.prefix_append k₁ k₂)) h4
  · rcases le_or_lt k₂.length sep.length with hlen | hlen
    · have hk2sep : k₂ <+: sep :=
        List.prefix_of_prefix_length_le hpre (List.prefix_append sep B) hlen
      have : Overlaps k sep := by
        refine overlaps_intro hne2 ?_ hk2sep
        exact hkk ▸ List.suffix_append k₁ k₂
      exact absurd this h3
    · have hsepk2 : sep <+: k₂ :=
        List.prefix_of_prefix_length_le (List.prefix_append sep B) hpre (Nat.le_of_lt hlen)
      have : sep <:+: k := hsepk2.isInfix.trans (hkk ▸ (List.suffix_append k₁ k₂).isInfix)
      exact absurd this h2

theorem not_infix_of_mem_not_mem {k s : Str} {c : Char} (hck : c ∈ k) (hcs : c ∉ s) :
    ¬ k <:+: s := fun h => hcs (h.subset hck)

theorem not_infix_append_of_last {k A B : Str} {c : Char} (hlast : A.getLast? = some c)
    (hc : c ∉ k) (h1 : ¬ k <:+: A) (h2 : ¬ k <:+: B) : ¬ k <:+: A ++ B := by
  intro h
  rcases infix_append_split h with hA | hB | ⟨k₁, k₂, hkk, hne1, _, hsuf, _⟩
  · exact h1 hA
  · exact h2 hB
  · obtain ⟨t, ht⟩ := hsuf
    have hglast : some (k₁.getLast hne1) = some c := by
      rw [← ht, List.getLast?_append, List.getLast?_eq_getLast k₁ hne1] at hlast
      simpa [Option.or] using hlast
    have : c ∈ k₁ := (Option.some.injEq ..).mp hglast ▸ List.getLast_mem hne1
    exact hc (hkk ▸ List.mem_append_left k₂ this)

theorem joinSep_cons {sep c0 : Str} {cs : List Str} (hcs : cs ≠ []) :
    joinSep sep (c0 :: cs) = c0 ++ sep ++ joinSep sep cs := by
  cases cs with
  | nil => exact absurd rfl hcs
  | cons c1 cs' => rfl

theorem joinSep_cons_head {sep c0 : Str} {c : Char} {cs : List Str} :
    joinSep sep ((c :: c0) :: cs) = c :: joinSep sep (c0 :: cs) := by
  cases cs <;> rfl

theorem infix_joinSep_of_mem {sep x c : Str} {cs : List Str} (hmem : c ∈ cs)
    (hx : x <:+: c) : x <:+: joinSep sep cs := by
  induction cs with
  | nil => exact absurd hmem (List.not_mem_nil c)
  | cons c0 cs ih =>
    rcases List.mem_cons.mp hmem with rfl | hmem'
    · by_cases hcs : cs = []
      · subst hcs; exact hx
      · rw [joinSep_cons hcs, List.append_assoc]
        exact hx.trans (List.prefix_append c (sep ++ joinSep sep cs)).isInfix
    · have hcs : cs ≠ [] := List.ne_nil_of_mem hmem'
      rw [joinSep_cons hcs]
      exact (ih hmem').trans (List.suffix_append (c0 ++ sep) (joinSep sep cs)).isInfix

theorem infix_joinSep_split {k sep : Str} {cs : List Str} (hk : k ≠ [])
    (h1 : ¬ k <:+: sep) (h2 : ¬ sep <:+: k) (h3 : ¬ Overlaps k sep)
    (h4 : ¬ Overlaps sep k) (h : k <:+: joinSep sep cs) : ∃ c ∈ cs, k <:+: c := by
  induction cs with
  | nil =>
    have := h.length_le
    simp only [joinSep, List.length_nil, Nat.le_zero, List.length_eq_zero] at this
    exact absurd this hk
  | cons c0 cs ih =>
    by_cases hcs : cs = []
    · subst hcs
      exact ⟨c0, List.mem_singleton.mpr rfl, h⟩
    · rw [joinSep_cons hcs] at h
      rcases infix_sep_split hk h1 h2 h3 h4 h with hA | hB
      · exact ⟨c0, List.mem_cons_self c0 cs, hA⟩
      · obtain ⟨c, hmem, hc⟩ := ih hB
        exact ⟨c, List.mem_cons_of_mem c0 hmem, hc⟩

theorem map_joinSep (f : Char → Char) (sep : Str) (cs : List Str) :
    (joinSep sep cs).map f = joinSep (sep.map f) (cs.map (List.map f)) := by
  induction cs with
  | nil => rfl
  | cons c0 cs ih =>
    by_cases hcs : cs = []
    · subst hcs; rfl
    · have hcs' : cs.map (List.map f) ≠ [] := by simpa using hcs
      rw [joinSep_cons hcs, List.map_cons, joinSep_cons hcs', List.map_append,
        List.map_append, ih]

theorem count_joinSep (a : Char) (sep : Str) (cs : List Str) :
    (joinSep sep cs).count a =
      (cs.map (List.count a)).sum + (cs.length - 1) * sep.count a := by
  induction cs with
  | nil => simp [joinSep]
  | cons c0 cs ih =>
    by_cases hcs : cs = []
    · subst hcs; simp [joinSep]
    · rw [joinSep_cons hcs, List.count_append, List.count_append, ih]
      have hne : cs.length ≠ 0 := fun hc => hcs (List.eq_nil_of_length_eq_zero hc)
      have h2 : (cs.length - 1) * sep.count a + sep.count a = cs.length * sep.count a := by
        cases hl : cs.length with
        | zero => exact absurd hl hne
        | succ n => simp [Nat.succ_sub_one, Nat.succ_mul]
      simp only [List.map_cons, List.sum_cons, List.length_cons, Nat.add_sub_cancel]
      omega

theorem mem_joinSep {x : Char} {sep : Str} {cs : List Str}
    (h : x ∈ joinSep sep cs) : (∃ c ∈ cs, x ∈ c) ∨ x ∈ sep := by
  induction cs with
  | nil => exact absurd h (List.not_mem_nil x)
  | cons c0 cs ih =>
    by_cases hcs : cs = []
    · subst hcs
      exact Or.inl ⟨c0, List.mem_singleton.mpr rfl, h⟩
    · rw [joinSep_cons hcs] at h
      rcases List.mem_append.mp h with h' | hJ
      · rcases List.mem_append.mp h' with hc0 | hsep
        · exact Or.inl ⟨c0, List.mem_cons_self c0 cs, hc0⟩
        · exact Or.inr hsep
      · rcases ih hJ with ⟨c, hmem, hc⟩ | hsep
        · exact Or.inl ⟨c, List.mem_cons_of_mem c0 hmem, hc⟩
        · exact Or.inr hsep

theorem getLast?_joinSep {sep c : Str} {cs : List Str} (hlast : cs.getLast? = some c)
    (hc : c ≠ []) : (joinSep sep cs).getLast? = c.getLast? := by
  induction cs with
  | nil => exact absurd hlast (by simp)
  | cons c0 cs ih =>
    by_cases hcs : cs = []
    · subst hcs
      obtain rfl : c0 = c := by simpa using hlast
      rfl
    · rw [joinSep_cons hcs]
      have hlast' : cs.getLast? = some c := by
        cases cs with
        | nil => exact absurd rfl hcs
        | cons c1 cs'' => rwa [List.getLast?_cons_cons] at hlast
      rw [List.getLast?_append, ih hlast']
      obtain ⟨d, hd⟩ : ∃ d, c.getLast? = some d := by
        cases hcg : c.getLast? with
        | none => exact absurd (List.getLast?_eq_none_iff.mp hcg) hc
        | some d => exact ⟨d, rfl⟩
      rw [hd]
      rfl

theorem replaceAll_match {p r s : Str} (hp : p ≠ []) (hps : p <+: s) (hs : s ≠ []) :
    replaceAll p r s = r ++ replaceAll p r (s.drop p.length) := by
  obtain ⟨c, t, rfl⟩ : ∃ c t, s = c :: t := by
    cases s with
    | nil => exact absurd rfl hs
    | cons c t => exact ⟨c, t, rfl⟩
  have hmm : replMatcher p r (c :: t) = some (r, (c :: t).drop p.length) := by
    unfold replMatcher stripLit
    rw [if_pos hps]
    simp [hp]
  exact scanSub_match consumes_replMatcher hmm

theorem replaceAll_no {p r : Str} {c : Char} {t : Str} (hps : ¬ p <+: c :: t) :
    replaceAll p r (c :: t) = c :: replaceAll p r t := by
  have hmm : replMatcher p r (c :: t) = none := by
    unfold replMatcher stripLit
    rw [if_neg hps]
  exact scanSub_no consumes_replMatcher hmm

theorem not_infix_nil {p : Str} (hp : p ≠ []) : ¬ p <:+: ([] : Str) := by
  intro h
  have := h.length_le
  simp only [List.length_nil, Nat.le_zero, List.length_eq_zero] at this
  exact hp this

theorem prefix_joinSep_head (sep c0 : Str) (cs : List Str) :
    c0 <+: joinSep sep (c0 :: cs) := by
  cases cs with
  | nil => exact List.prefix_rfl
  | cons c1 cs' =>
    rw [joinSep_cons (List.cons_ne_nil c1 cs'), List.append_assoc]
    exact List.prefix_append c0 _

theorem replaceAll_decompN {p r : Str} (hp : p ≠ []) :
    ∀ n s, s.length ≤ n →
      ∃ cs, cs ≠ [] ∧ s = joinSep p cs ∧ replaceAll p r s = joinSep r cs ∧
        ∀ c ∈ cs, ¬ p <:+: c := by
  intro n
  induction n with
  | zero =>
    intro s hs
    obtain rfl : s = [] := List.eq_nil_of_length_eq_zero (Nat.le_zero.mp hs)
    refine ⟨[[]], by simp, rfl, rfl, ?_⟩
    intro c hc
    rw [List.mem_singleton.mp hc]
    exact not_infix_nil hp
  | succ n ih =>
    intro s hs
    cases s with
    | nil =>
      refine ⟨[[]], by simp, rfl, rfl, ?_⟩
      intro c hc
      rw [List.mem_singleton.mp hc]
      exact not_infix_nil hp
    | cons c t =>
      by_cases hps : p <+: c :: t
      · have heq := replaceAll_match (r := r) hp hps (List.cons_ne_nil c t)
        have hlen : ((c :: t).drop p.length).length ≤ n := by
          have h0 : 0 < p.length := List.length_pos.mpr hp
          simp only [List.length_drop, List.length_cons]
          simp only [List.length_cons] at hs
          omega
        obtain ⟨cs, hne, hs1, hs2, hch⟩ := ih _ hlen
        refine ⟨[] :: cs, by simp, ?_, ?_, ?_⟩
        · obtain ⟨w, hw⟩ := hps
          rw [joinSep_cons hne, ← hs1, List.nil_append, ← hw, List.drop_left]
        · rw [heq, hs2, joinSep_cons hne, List.nil_append]
        · intro c' hc'
          rcases List.mem_cons.mp hc' with rfl | hmem
          · exact not_infix_nil hp
          · exact hch c' hmem
      · have heq := replaceAll_no (r := r) hps
        have hlen : t.length ≤ n := by
          simp only [List.length_cons] at hs
          omega
        obtain ⟨cs, hne, hs1, hs2, hch⟩ := ih t hlen
        cases cs with
        | nil => exact absurd rfl hne
        | cons c0 cs' =>
          refine ⟨(c :: c0) :: cs', by simp, ?_, ?_, ?_⟩
          · rw [joinSep_cons_head, ← hs1]
          · rw [heq, hs2, joinSep_cons_head]
          · intro c' hc'
            rcases List.mem_cons.mp hc' with rfl | hmem
            · intro hcon
              rcases List.infix_cons_iff.mp hcon with hpre | hinf
              · have hc0t : c0 <+: t := hs1 ▸ prefix_joinSep_head p c0 cs'
                have : p <+: c :: t :=
                  List.IsPrefix.trans hpre ((List.prefix_cons_inj c).mpr hc0t)
                exact hps this
              · exact hch c0 (List.mem_cons_self c0 cs') hinf
            · exact hch c' (List.mem_cons_of_mem c0 hmem)

theorem replaceAll_decomp {p r : Str} (hp : p ≠ []) (s : Str) :
    ∃ cs, cs ≠ [] ∧ s = joinSep p cs ∧ replaceAll p r s = joinSep r cs ∧
      ∀ c ∈ cs, ¬ p <:+: c :=
  replaceAll_decompN hp s.length s le_rfl

theorem replaceAll_id {p r s : Str} (h : ¬ p <:+: s) : replaceAll p r s = s := by
  induction s with
  | nil => rfl
  | cons c t ih =>
    have hps : ¬ p <+: c :: t := fun hc => h hc.isInfix
    rw [replaceAll_no hps, ih (fun hc => h (List.infix_cons hc))]

theorem not_infix_replaceAll {p r s : Str} (hp : p ≠ []) (h1 : ¬ p <:+: r)
    (h2 : ¬ r <:+: p) (h3 : ¬ Overlaps p r) (h4 : ¬ Overlaps r p) :
    ¬ p <:+: replaceAll p r s := by
  obtain ⟨cs, _, _, hs2, hchunks⟩ := replaceAll_decomp (r := r) hp s
  rw [hs2]
  intro hcon
  obtain ⟨c, hmem, hc⟩ := infix_joinSep_split hp h1 h2 h3 h4 hcon
  exact hchunks c hmem hc

theorem infix_replaceAll {k p r s : Str} (hp : p ≠ []) (hk : k ≠ [])
    (h1 : ¬ k <:+: p) (h2 : ¬ p <:+: k) (h3 : ¬ Overlaps k p) (h4 : ¬ Overlaps p k)
    (h : k <:+: s) : k <:+: replaceAll p r s := by
  obtain ⟨cs, _, hs1, hs2, -⟩ := replaceAll_decomp (r := r) hp s
  rw [hs1] at h
  obtain ⟨c, hmem, hc⟩ := infix_joinSep_split hk h1 h2 h3 h4 h
  rw [hs2]
  exact infix_joinSep_of_mem hmem hc

theorem infix_map_replaceAll {f : Char → Char} {k p r s : Str} (hp : p ≠ [])
    (hk : k ≠ []) (h1 : ¬ k <:+: p.map f) (h2 : ¬ p.map f <:+: k)
    (h3 : ¬ Overlaps k (p.map f)) (h4 : ¬ Overlaps (p.map f) k)
    (h : k <:+: s.map f) : k <:+: (replaceAll p r s).map f := by
  obtain ⟨cs, _, hs1, hs2, -⟩ := replaceAll_decomp (r := r) hp s
  rw [hs1, map_joinSep] at h
  obtain ⟨c', hmem, hc⟩ := infix_joinSep_split hk h1 h2 h3 h4 h
  rw [hs2, map_joinSep]
  exact infix_joinSep_of_mem hmem hc

theorem infix_of_infix_replaceAll {k p r s : Str} (hp : p ≠ []) (hk : k ≠ [])
    (h1 : ¬ k <:+: r) (h2 : ¬ r <:+: k) (h3 : ¬ Overlaps k r) (h4 : ¬ Overlaps r k)
    (h : k <:+: replaceAll p r s) : k <:+: s := by
  obtain ⟨cs, _, hs1, hs2, -⟩ := replaceAll_decomp (r := r) hp s
  rw [hs2] at h
  obtain ⟨c, hmem, hc⟩ := infix_joinSep_split hk h1 h2 h3 h4 h
  rw [hs1]
  exact infix_joinSep_of_mem hmem hc

theorem count_replaceAll {p r s : Str} {a : Char} (hp : p ≠ [])
    (hpa : p.count a = r.count a) : (replaceAll p r s).count a = s.count a := by
  obtain ⟨cs, _, hs1, hs2, -⟩ := replaceAll_decomp (r := r) hp s
  rw [hs2]
  conv_rhs => rw [hs1]
  rw [count_joinSep, count_joinSep, hpa]

theorem mem_replaceAll {p r s : Str} {x : Char} (hp : p ≠ [])
    (h : x ∈ replaceAll p r s) : x ∈ s ∨ x ∈ r := by
  obtain ⟨cs, _, hs1, hs2, -⟩ := replaceAll_decomp (r := r) hp s
  rw [hs2] at h
  rcases mem_joinSep h with ⟨c, hmem, hc⟩ | hr
  · exact Or.inl (hs1 ▸ (infix_joinSep_of_mem hmem List.infix_rfl).subset hc)
  · exact Or.inr hr

theorem mem_scanSubF {m : Matcher} (hm : SubsetEmit m) :
    ∀ fuel s x, x ∈ scanSubF m fuel s → x ∈ s := by
  intro fuel
  induction fuel with
  | zero => intro s x hx; exact hx
  | succ fuel ih =>
    intro s x hx
    cases s with
    | nil => exact absurd hx (List.not_mem_nil x)
    | cons c t =>
      revert hx
      show x ∈ scanSubF m (fuel + 1) (c :: t) → x ∈ c :: t
      simp only [scanSubF]
      cases hm' : m (c :: t) with
      | some er =>
        obtain ⟨e, rest⟩ := er
        intro hx
        rcases List.mem_append.mp hx with he | hrec
        · exact (hm _ _ _ hm').1 x he
        · exact (hm _ _ _ hm').2 x (ih rest x hrec)
      | none =>
        intro hx
        rcases List.mem_cons.mp hx with rfl | hrec
        · exact List.mem_cons_self x t
        · exact List.mem_cons_of_mem c (ih t x hrec)

theorem mem_scanSub {m : Matcher} (hm : SubsetEmit m) {s : Str} {x : Char}
    (hx : x ∈ scanSub m s) : x ∈ s := mem_scanSubF hm s.length s x hx

theorem not_infix_append_of_head {k A B : Str} {c : Char} (hhead : B.head? = some c)
    (hc : c ∉ k) (h1 : ¬ k <:+: A) (h2 : ¬ k <:+: B) : ¬ k <:+: A ++ B := by
  intro h
  rcases infix_append_split h with hA | hB | ⟨k₁, k₂, hkk, _, hne2, _, hpre⟩
  · exact h1 hA
  · exact h2 hB
  · obtain ⟨t, ht⟩ := hpre
    have hghead : some (k₂.head hne2) = some c := by
      rw [← ht, List.head?_append, List.head?_eq_head hne2] at hhead
      simpa [Option.or] using hhead
    have : c ∈ k₂ := (Option.some.injEq ..).mp hghead ▸ List.head_mem hne2
    exact hc (hkk ▸ List.mem_append_right k₁ this)

theorem pySplit_ne_nil (sep : Char) (t : Str) : pySplit sep t ≠ [] := by
  induction t with
  | nil => simp [pySplit]
  | cons c rest ih =>
    show pySplit sep (c :: rest) ≠ []
    unfold pySplit
    cases hrec : pySplit sep rest with
    | nil => simp
    | cons h t' =>
      dsimp only
      by_cases hc : c = sep
      · rw [if_pos hc]; simp
      · rw [if_neg hc]; simp

theorem not_mem_pySplit (sep : Char) (t : Str) : ∀ l ∈ pySplit sep t, sep ∉ l := by
  induction t with
  | nil =>
    intro l hl
    rw [show pySplit sep [] = [[]] from rfl, List.mem_singleton] at hl
    subst hl
    exact List.not_mem_nil sep
  | cons c rest ih =>
    intro l hl
    revert hl
    show l ∈ pySplit sep (c :: rest) → sep ∉ l
    unfold pySplit
    cases hrec : pySplit sep rest with
    | nil => exact absurd hrec (pySplit_ne_nil sep rest)
    | cons h t' =>
      dsimp only
      by_cases hc : c = sep
      · rw [if_pos hc]
        intro hl
        rcases List.mem_cons.mp hl with rfl | hl'
        · exact List.not_mem_nil sep
        · exact ih l (hrec ▸ hl')
      · rw [if_neg hc]
        intro hl
        rcases List.mem_cons.mp hl with rfl | hl'
        · intro hmem
          rcases List.mem_cons.mp hmem with rfl | hmem'
          · exact hc rfl
          · exact ih h (hrec ▸ List.mem_cons_self h t') hmem'
        · exact ih l (hrec ▸ List.mem_cons_of_mem h hl')

theorem joinSep_pySplit (sep : Char) (t : Str) :
    joinSep [sep] (pySplit sep t) = t := by
  induction t with
  | nil => rfl
  | cons c rest ih =>
    show joinSep [sep] (pySplit sep (c :: rest)) = c :: rest
    unfold pySplit
    cases hrec : pySplit sep rest with
    | nil => exact absurd hrec (pySplit_ne_nil sep rest)
    | cons h t' =>
      dsimp only
      rw [hrec] at ih
      by_cases hc : c = sep
      · rw [if_pos hc]
        subst hc
        rw [joinSep_cons (List.cons_ne_nil h t'), ih]
        rfl
      · rw [if_neg hc, joinSep_cons_head, ih]

theorem length_pySplit (sep : Char) (t : Str) :
    (pySplit sep t).length = t.count sep + 1 := by
  induction t with
  | nil => rfl
  | cons c rest ih =>
    show (pySplit sep (c :: rest)).length = (c :: rest).count sep + 1
    unfold pySplit
    cases hrec : pySplit sep rest with
    | nil => exact absurd hrec (pySplit_ne_nil sep rest)
    | cons h t' =>
      dsimp only
      rw [hrec] at ih
      by_cases hc : c = sep
      · rw [if_pos hc]
        subst hc
        rw [List.count_cons_self]
        simp only [List.length_cons] at ih ⊢
        omega
      · rw [if_neg hc, List.count_cons_of_ne (Ne.symm hc)]
        simp only [List.length_cons] at ih ⊢
        omega

theorem pySplit_no_sep {sep : Char} {l : Str} (h : sep ∉ l) : pySplit sep l = [l] := by
  induction l with
  | nil => rfl
  | cons c l' ih =>
    have hc : c ≠ sep := fun hc => h (hc ▸ List.mem_cons_self c l')
    have hl' : sep ∉ l' := fun hm => h (List.mem_cons_of_mem c hm)
    show pySplit sep (c :: l') = [c :: l']
    unfold pySplit
    rw [ih hl']
    dsimp only
    rw [if_neg hc]

theorem pySplit_append_sep {sep : Char} {l rest : Str} (h : sep ∉ l) :
    pySplit sep (l ++ sep :: rest) = l :: pySplit sep rest := by
  induction l with
  | nil =>
    show pySplit sep (sep :: rest) = [] :: pySplit sep rest
    conv_lhs => unfold pySplit
    cases hrec : pySplit sep rest with
    | nil => exact absurd hrec (pySplit_ne_nil sep rest)
    | cons h' t' =>
      dsimp only
      rw [if_pos rfl]
  | cons c l' ih =>
    have hc : c ≠ sep := fun hc => h (hc ▸ List.mem_cons_self c l')
    have hl' : sep ∉ l' := fun hm => h (List.mem_cons_of_mem c hm)
    show pySplit sep (c :: (l' ++ sep :: rest)) = (c :: l') :: pySplit sep rest
    conv_lhs => unfold pySplit
    rw [ih hl']
    dsimp only
    rw [if_neg hc]

theorem pySplit_joinSep {sep : Char} {ls : List Str} (hne : ls ≠ [])
    (h : ∀ l ∈ ls, sep ∉ l) : pySplit sep (joinSep [sep] ls) = ls := by
  induction ls with
  | nil => exact absurd rfl hne
  | cons l ls' ih =>
    cases ls' with
    | nil => exact pySplit_no_sep (h l (List.mem_singleton.mpr rfl))
    | cons l2 ls'' =>
      rw [joinSep_cons (List.cons_ne_nil l2 ls''), List.append_assoc,
        List.singleton_append]
      rw [pySplit_append_sep (h l (List.mem_cons_self l (l2 :: ls'')))]
      rw [ih (List.cons_ne_nil l2 ls'') (fun x hx => h x (List.mem_cons_of_mem l hx))]

theorem flatten_pyReadLines (t : Str) : (pyReadLines t).flatten = t := by
  induction t with
  | nil => rfl
  | cons c rest ih =>
    show (pyReadLines (c :: rest)).flatten = c :: rest
    unfold pyReadLines
    by_cases hc : c = '\n'
    · rw [if_pos hc]
      subst hc
      simp only [List.flatten_cons, List.singleton_append]
      rw [ih]
    · rw [if_neg hc]
      cases hrec : pyReadLines rest with
      | nil =>
        dsimp only
        rw [hrec] at ih
        simp only [List.flatten_nil] at ih
        rw [← ih]
        rfl
      | cons l ls =>
        dsimp only
        rw [hrec] at ih
        simp only [List.flatten_cons] at ih ⊢
        rw [← ih]
        rfl

theorem pyReadLines_cons (c : Char) (rest : Str) :
    pyReadLines (c :: rest) =
      if c = '\n' then ['\n'] :: pyReadLines rest
      else
        match pyReadLines rest with
        | [] => [[c]]
        | l :: ls => (c :: l) :: ls := rfl

theorem validLines_nil : ValidLines [] := trivial

theorem validLines_singleton {l : Str} : ValidLines [l] ↔ IsTailLine l := Iff.rfl

theorem validLines_cons {l : Str} {ls : List Str} (hls : ls ≠ []) :
    ValidLines (l :: ls) ↔ IsNlLine l ∧ ValidLines ls := by
  cases ls with
  | nil => exact absurd rfl hls
  | cons l2 ls' => exact Iff.rfl

theorem isNlLine_cons {c : Char} {l : Str} (hc : c ≠ '\n') (h : IsNlLine l) :
    IsNlLine (c :: l) := by
  obtain ⟨l', rfl, hmem⟩ := h
  refine ⟨c :: l', rfl, ?_⟩
  intro hcon
  rcases List.mem_cons.mp hcon with h' | h'
  · exact hc h'.symm
  · exact hmem h'

theorem isTailLine_cons {c : Char} {l : Str} (hc : c ≠ '\n') (h : IsTailLine l) :
    IsTailLine (c :: l) := by
  refine ⟨List.cons_ne_nil c l, ?_⟩
  rcases h.2 with hno | hnl
  · refine Or.inl ?_
    intro hcon
    rcases List.mem_cons.mp hcon with h' | h'
    · exact hc h'.symm
    · exact hno h'
  · exact Or.inr (isNlLine_cons hc hnl)

theorem isNlLine_singleton_nl : IsNlLine ['\n'] :=
  ⟨[], rfl, List.not_mem_nil '\n'⟩

theorem validLines_pyReadLines (t : Str) : ValidLines (pyReadLines t) := by
  induction t with
  | nil => exact trivial
  | cons c rest ih =>
    rw [pyReadLines_cons]
    by_cases hc : c = '\n'
    · rw [if_pos hc]
      cases hrec : pyReadLines rest with
      | nil => exact validLines_singleton.mpr ⟨List.cons_ne_nil '\n' [], Or.inr isNlLine_singleton_nl⟩
      | cons l ls =>
        refine (validLines_cons (List.cons_ne_nil l ls)).mpr ⟨isNlLine_singleton_nl, ?_⟩
        rw [← hrec]
        exact ih
    · rw [if_neg hc]
      cases hrec : pyReadLines rest with
      | nil =>
        dsimp only
        refine validLines_singleton.mpr ⟨List.cons_ne_nil c [], Or.inl ?_⟩
        intro hcon
        rcases List.mem_cons.mp hcon with h' | h'
        · exact hc h'.symm
        · exact absurd h' (List.not_mem_nil '\n')
      | cons l ls =>
        dsimp only
        rw [hrec] at ih
        cases ls with
        | nil => exact validLines_singleton.mpr (isTailLine_cons hc (validLines_singleton.mp ih))
        | cons l2 ls' =>
          have h2 := (validLines_cons (List.cons_ne_nil l2 ls')).mp ih
          exact (validLines_cons (List.cons_ne_nil l2 ls')).mpr
            ⟨isNlLine_cons hc h2.1, h2.2⟩

theorem pyReadLines_no_nl {l : Str} (hne : l ≠ []) (h : '\n' ∉ l) :
    pyReadLines l = [l] := by
  induction l with
  | nil => exact absurd rfl hne
  | cons c l' ih =>
    have hc : c ≠ '\n' := fun hc => h (hc ▸ List.mem_cons_self c l')
    have hl' : '\n' ∉ l' := fun hm => h (List.mem_cons_of_mem c hm)
    rw [pyReadLines_cons, if_neg hc]
    cases hl'e : l' with
    | nil => rfl
    | cons d l'' =>
      rw [← hl'e, ih (hl'e ▸ List.cons_ne_nil d l'') hl']

theorem pyReadLines_nl_chunk {l' : Str} (rest : Str) (h : '\n' ∉ l') :
    pyReadLines (l' ++ '\n' :: rest) = (l' ++ ['\n']) :: pyReadLines rest := by
  induction l' with
  | nil =>
    rw [List.nil_append, pyReadLines_cons, if_pos rfl]
    rfl
  | cons c l'' ih =>
    have hc : c ≠ '\n' := fun hc => h (hc ▸ List.mem_cons_self c l'')
    have hl'' : '\n' ∉ l'' := fun hm => h (List.mem_cons_of_mem c hm)
    rw [List.cons_append, pyReadLines_cons, if_neg hc, ih hl'']
    rfl

theorem pyReadLines_flatten {ls : List Str} (h : ValidLines ls) :
    pyReadLines ls.flatten = ls := by
  induction ls with
  | nil => rfl
  | cons l ls' ih =>
    cases ls' with
    | nil =>
      obtain ⟨hne, hdisj⟩ := validLines_singleton.mp h
      simp only [List.flatten_cons, List.flatten_nil, List.append_nil]
      rcases hdisj with hno | ⟨l', rfl, hmem⟩
      · exact pyReadLines_no_nl hne hno
      · have : l' ++ ['\n'] = l' ++ '\n' :: [] := rfl
        rw [this, pyReadLines_nl_chunk [] hmem]
        rfl
    | cons l2 ls'' =>
      obtain ⟨⟨l', rfl, hmem⟩, hrest⟩ := (validLines_cons (List.cons_ne_nil l2 ls'')).mp h
      have hassoc : ((l' ++ ['\n']) :: l2 :: ls'').flatten
          = l' ++ '\n' :: (l2 :: ls'').flatten := by
        rw [List.flatten_cons, List.append_assoc]
        rfl
      rw [hassoc, pyReadLines_nl_chunk _ hmem, ih hrest]

theorem fixEmptyAux_length (prev : Option Str) (ls : List Str) :
    (fixEmptyAux prev ls).length = ls.length := by
  induction ls generalizing prev with
  | nil => rfl
  | cons l rest ih =>
    show (fixEmptyLine prev l :: fixEmptyAux (some (fixEmptyLine prev l)) rest).length
      = (l :: rest).length
    simp only [List.length_cons, ih]

theorem fixEmptyAux_get_zero {prev : Option Str} {ls : List Str} {l : Str}
    (hl : ls.get? 0 = some l) :
    (fixEmptyAux prev ls).get? 0 = some (fixEmptyLine prev l) := by
  cases ls with
  | nil => exact absurd hl (by simp)
  | cons l0 rest =>
    obtain rfl : l0 = l := by simpa using hl
    rfl

theorem fixEmptyAux_get_succ {prev : Option Str} {ls : List Str} {i : Nat} {q l : Str}
    (hq : (fixEmptyAux prev ls).get? i = some q) (hl : ls.get? (i + 1) = some l) :
    (fixEmptyAux prev ls).get? (i + 1) = some (fixEmptyLine (some q) l) := by
  induction ls generalizing prev i with
  | nil => exact absurd hl (by simp)
  | cons l0 rest ih =>
    cases i with
    | zero =>
      have hq0 : fixEmptyLine prev l0 = q := by simpa [fixEmptyAux] using hq
      have hl0 : rest.get? 0 = some l := by simpa using hl
      show (fixEmptyAux (some (fixEmptyLine prev l0)) rest).get? 0
        = some (fixEmptyLine (some q) l)
      rw [hq0]
      exact fixEmptyAux_get_zero hl0
    | succ i' =>
      have hq' : (fixEmptyAux (some (fixEmptyLine prev l0)) rest).get? i' = some q := by
        simpa [fixEmptyAux] using hq
      have hl' : rest.get? (i' + 1) = some l := by simpa using hl
      show (fixEmptyAux (some (fixEmptyLine prev l0)) rest).get? (i' + 1)
        = some (fixEmptyLine (some q) l)
      exact ih hq' hl'

theorem msgFor_cases (prev : Option Str) :
    msgFor prev = repSuccess ∨ msgFor prev = repError ∨ msgFor prev = repProcessing := by
  cases prev with
  | none => exact Or.inr (Or.inr rfl)
  | some p =>
    unfold msgFor
    dsimp only
    by_cases h1 : kwFound <:+: p ∨ kwCreated <:+: p ∨ kwUpdated <:+: p
    · rw [if_pos h1]; exact Or.inl rfl
    · rw [if_neg h1]
      by_cases h2 : kwError <:+: lowerStr p ∨ kwFail <:+: lowerStr p
      · rw [if_pos h2]; exact Or.inr (Or.inl rfl)
      · rw [if_neg h2]; exact Or.inr (Or.inr rfl)

theorem msgFor_ne_nil (prev : Option Str) : msgFor prev ≠ [] := by
  rcases msgFor_cases prev with h | h | h <;> rw [h] <;> decide

theorem msgFor_no_nl (prev : Option Str) : '\n' ∉ msgFor prev := by
  rcases msgFor_cases prev with h | h | h <;> rw [h] <;> decide

theorem msgFor_count_nl (prev : Option Str) : (msgFor prev).count '\n' = 0 := by
  rcases msgFor_cases prev with h | h | h <;> rw [h] <;> decide

theorem pLog_ne_nil : pLog ≠ [] := by decide

theorem fixEmptyLine_pos {prev : Option Str} {l : Str} (h : pLog <:+: l) :
    fixEmptyLine prev l = replaceAll pLog (msgFor prev) l := if_pos h

theorem fixEmptyLine_neg {prev : Option Str} {l : Str} (h : ¬ pLog <:+: l) :
    fixEmptyLine prev l = l := if_neg h

theorem sepFrom_pLog_msg (prev : Option Str) :
    ¬ pLog <:+: msgFor prev ∧ ¬ msgFor prev <:+: pLog ∧
      ¬ Overlaps pLog (msgFor prev) ∧ ¬ Overlaps (msgFor prev) pLog := by
  rcases msgFor_cases prev with h | h | h <;> rw [h] <;>
    exact ⟨by decide, by decide, by decide, by decide⟩

theorem fixEmptyLine_no_pLog (prev : Option Str) (l : Str) :
    ¬ pLog <:+: fixEmptyLine prev l := by
  by_cases h : pLog <:+: l
  · rw [fixEmptyLine_pos h]
    obtain ⟨h1, h2, h3, h4⟩ := sepFrom_pLog_msg prev
    exact not_infix_replaceAll pLog_ne_nil h1 h2 h3 h4
  · rw [fixEmptyLine_neg h]
    exact h

theorem fixEmptyAux_no_pLog (prev : Option Str) (ls : List Str) :
    ∀ l ∈ fixEmptyAux prev ls, ¬ pLog <:+: l := by
  induction ls generalizing prev with
  | nil => intro l hl; exact absurd hl (List.not_mem_nil l)
  | cons l0 rest ih =>
    intro l hl
    rcases List.mem_cons.mp hl with rfl | hmem
    · exact fixEmptyLine_no_pLog prev l0
    · exact ih (some (fixEmptyLine prev l0)) l hmem

theorem fixEmptyAux_id {ls : List Str} (h : ∀ l ∈ ls, ¬ pLog <:+: l) :
    ∀ prev, fixEmptyAux prev ls = ls := by
  induction ls with
  | nil => intro prev; rfl
  | cons l0 rest ih =>
    intro prev
    show fixEmptyLine prev l0 :: fixEmptyAux (some (fixEmptyLine prev l0)) rest = l0 :: rest
    rw [fixEmptyLine_neg (h l0 (List.mem_cons_self l0 rest))]
    rw [ih (fun l hl => h l (List.mem_cons_of_mem l0 hl)) (some l0)]

theorem mem_fixEmptyLine {prev : Option Str} {l : Str} {x : Char}
    (h : x ∈ fixEmptyLine prev l) : x ∈ l ∨ x ∈ msgFor prev := by
  by_cases hb : pLog <:+: l
  · rw [fixEmptyLine_pos hb] at h
    exact mem_replaceAll pLog_ne_nil h
  · rw [fixEmptyLine_neg hb] at h
    exact Or.inl h

theorem fixEmptyLine_count_nl (prev : Option Str) (l : Str) :
    (fixEmptyLine prev l).count '\n' = l.count '\n' := by
  by_cases hb : pLog <:+: l
  · rw [fixEmptyLine_pos hb]
    exact count_replaceAll pLog_ne_nil (by rw [msgFor_count_nl]; decide)
  · rw [fixEmptyLine_neg hb]

theorem isNlLine_iff {l : Str} :
    IsNlLine l ↔ l.count '\n' = 1 ∧ l.getLast? = some '\n' := by
  constructor
  · rintro ⟨l', rfl, hmem⟩
    constructor
    · rw [List.count_append, List.count_eq_zero.mpr hmem]
      rfl
    · rw [List.getLast?_append]
      rfl
  · rintro ⟨hcount, hlast⟩
    have hne : l ≠ [] := by
      intro h
      rw [h] at hlast
      exact Option.noConfusion hlast
    have hdec : l.dropLast ++ ['\n'] = l := List.dropLast_append_getLast? '\n' hlast
    refine ⟨l.dropLast, hdec.symm, ?_⟩
    rw [← hdec, List.count_append] at hcount
    have : l.dropLast.count '\n' = 0 := by
      have hone : (['\n'] : Str).count '\n' = 1 := by decide
      rw [hone] at hcount
      omega
    exact List.count_eq_zero.mp this

theorem getLast?_joinSep_last_nil {sep : Str} {cs : List Str} (hsep : sep ≠ [])
    (h : cs.getLast? = some []) :
    (joinSep sep cs).getLast? = none ∨ (joinSep sep cs).getLast? = sep.getLast? := by
  induction cs with
  | nil => exact absurd h (by simp)
  | cons c0 cs' ih =>
    cases cs' with
    | nil =>
      obtain rfl : c0 = [] := by simpa using h
      exact Or.inl rfl
    | cons c1 cs'' =>
      have h' : (c1 :: cs'').getLast? = some [] := by
        rwa [List.getLast?_cons_cons] at h
      obtain ⟨b, hb⟩ : ∃ b, sep.getLast? = some b := by
        cases hsl : sep.getLast? with
        | none => exact absurd (List.getLast?_eq_none_iff.mp hsl) hsep
        | some b => exact ⟨b, rfl⟩
      rw [joinSep_cons (List.cons_ne_nil c1 cs''), List.getLast?_append]
      rcases ih h' with hnone | hlast
      · rw [hnone, List.getLast?_append, hb]
        exact Or.inr rfl
      · rw [hlast, hb]
        exact Or.inr rfl

theorem fixEmptyLine_getLast_nl {prev : Option Str} {l : Str}
    (h : l.getLast? = some '\n') : (fixEmptyLine prev l).getLast? = some '\n' := by
  by_cases hb : pLog <:+: l
  · rw [fixEmptyLine_pos hb]
    obtain ⟨cs, hne, hs1, hs2, -⟩ :=
      replaceAll_decomp (r := msgFor prev) pLog_ne_nil l
    obtain ⟨clast, hclast⟩ : ∃ clast, cs.getLast? = some clast := by
      cases hcl : cs.getLast? with
      | none => exact absurd (List.getLast?_eq_none_iff.mp hcl) hne
      | some clast => exact ⟨clast, rfl⟩
    by_cases hcnil : clast = []
    · exfalso
      subst hcnil
      rcases getLast?_joinSep_last_nil pLog_ne_nil hclast with hnone | hlast
      · rw [hs1, hnone] at h
        exact Option.noConfusion h
      · rw [hs1, hlast] at h
        have : pLog.getLast? = some ')' := by decide
        rw [this] at h
        exact absurd ((Option.some.injEq ..).mp h) (by decide)
    · have hr : (joinSep (msgFor prev) cs).getLast? = clast.getLast? :=
        getLast?_joinSep hclast hcnil
      have hl : (joinSep pLog cs).getLast? = clast.getLast? :=
        getLast?_joinSep hclast hcnil
      rw [hs2, hr, ← hl, ← hs1, h]
  · rwa [fixEmptyLine_neg hb]

theorem fixEmptyLine_isNlLine {prev : Option Str} {l : Str} (h : IsNlLine l) :
    IsNlLine (fixEmptyLine prev l) := by
  obtain ⟨hcount, hlast⟩ := isNlLine_iff.mp h
  refine isNlLine_iff.mpr ⟨?_, fixEmptyLine_getLast_nl hlast⟩
  rw [fixEmptyLine_count_nl, hcount]

theorem fixEmptyLine_ne_nil {prev : Option Str} {l : Str} (h : l ≠ []) :
    fixEmptyLine prev l ≠ [] := by
  by_cases hb : pLog <:+: l
  · rw [fixEmptyLine_pos hb]
    obtain ⟨cs, hne, hs1, hs2, -⟩ :=
      replaceAll_decomp (r := msgFor prev) pLog_ne_nil l
    rw [hs2]
    cases cs with
    | nil => exact absurd rfl hne
    | cons c0 cs' =>
      cases cs' with
      | nil =>
        have : joinSep pLog [c0] = c0 := rfl
        rw [hs1, this] at h
        exact h
      | cons c1 cs'' =>
        rw [joinSep_cons (List.cons_ne_nil c1 cs'')]
        intro hcon
        rcases List.append_eq_nil.mp hcon with ⟨hcon', -⟩
        rcases List.append_eq_nil.mp hcon' with ⟨-, hmsg⟩
        exact msgFor_ne_nil prev hmsg
  · rwa [fixEmptyLine_neg hb]

theorem fixEmptyLine_no_nl {prev : Option Str} {l : Str} (h : '\n' ∉ l) :
    '\n' ∉ fixEmptyLine prev l := by
  intro hcon
  rcases mem_fixEmptyLine hcon with hl | hmsg
  · exact h hl
  · exact msgFor_no_nl prev hmsg

theorem fixEmptyLine_isTailLine {prev : Option Str} {l : Str} (h : IsTailLine l) :
    IsTailLine (fixEmptyLine prev l) := by
  refine ⟨fixEmptyLine_ne_nil h.1, ?_⟩
  rcases h.2 with hno | hnl
  · exact Or.inl (fixEmptyLine_no_nl hno)
  · exact Or.inr (fixEmptyLine_isNlLine hnl)

theorem fixEmptyAux_validLines {ls : List Str} (h : ValidLines ls) :
    ∀ prev, ValidLines (fixEmptyAux prev ls) := by
  induction ls with
  | nil => intro prev; exact trivial
  | cons l0 rest ih =>
    intro prev
    show ValidLines (fixEmptyLine prev l0 :: fixEmptyAux (some (fixEmptyLine prev l0)) rest)
    cases rest with
    | nil =>
      exact validLines_singleton.mpr
        (fixEmptyLine_isTailLine (validLines_singleton.mp h))
    | cons l1 rest' =>
      have hne : fixEmptyAux (some (fixEmptyLine prev l0)) (l1 :: rest') ≠ [] := by
        intro hcon
        have := congrArg List.length hcon
        rw [fixEmptyAux_length] at this
        simp at this
      obtain ⟨hNl, hrest⟩ := (validLines_cons (List.cons_ne_nil l1 rest')).mp h
      exact (validLines_cons hne).mpr
        ⟨fixEmptyLine_isNlLine hNl, ih hrest (some (fixEmptyLine prev l0))⟩

theorem fix_empty_logs_idem (c : Str) :
    fix_empty_logs (fix_empty_logs c) = fix_empty_logs c := by
  show (fixEmptyLines (pyReadLines ((fixEmptyLines (pyReadLines c)).flatten))).flatten
    = fix_empty_logs c
  unfold fixEmptyLines
  rw [pyReadLines_flatten (fixEmptyAux_validLines (validLines_pyReadLines c) none)]
  rw [fixEmptyAux_id (fixEmptyAux_no_pLog none (pyReadLines c)) none]
  rfl

theorem fixEmptyLine_keyword_fwd {k : Str} (hk : k ≠ []) (hs : SepFrom k pLog)
    {prev : Option Str} {l : Str} (h : k <:+: l) : k <:+: fixEmptyLine prev l := by
  obtain ⟨h1, h2, h3, h4⟩ := hs
  by_cases hb : pLog <:+: l
  · rw [fixEmptyLine_pos hb]
    exact infix_replaceAll pLog_ne_nil hk h1 h2 h3 h4 h
  · rwa [fixEmptyLine_neg hb]

theorem fixEmptyLine_keyword_lower_fwd {k : Str} (hk : k ≠ []) (hs : SepFrom k pLog)
    {prev : Option Str} {l : Str} (h : k <:+: lowerStr l) :
    k <:+: lowerStr (fixEmptyLine prev l) := by
  obtain ⟨h1, h2, h3, h4⟩ := hs
  have hmap : pLog.map Char.toLower = pLog := by decide
  by_cases hb : pLog <:+: l
  · rw [fixEmptyLine_pos hb]
    exact infix_map_replaceAll pLog_ne_nil hk (hmap.symm ▸ h1) (hmap.symm ▸ h2)
      (hmap.symm ▸ h3) (hmap.symm ▸ h4) h
  · rwa [fixEmptyLine_neg hb]

theorem fixEmptyLine_keyword_bwd {k : Str} (hk : k ≠ [])
    (hS : SepFrom k repSuccess) (hE : SepFrom k repError)
    (hP : SepFrom k repProcessing) {prev : Option Str} {l : Str}
    (h : ¬ k <:+: l) : ¬ k <:+: fixEmptyLine prev l := by
  by_cases hb : pLog <:+: l
  · rw [fixEmptyLine_pos hb]
    intro hcon
    have hsf : SepFrom k (msgFor prev) := by
      rcases msgFor_cases prev with hm | hm | hm <;> rw [hm] <;> assumption
    obtain ⟨h1, h2, h3, h4⟩ := hsf
    exact h (infix_of_infix_replaceAll pLog_ne_nil hk h1 h2 h3 h4 hcon)
  · rwa [fixEmptyLine_neg hb]

theorem sLit_prefix_s1Lit : s1Lit = sLit ++ [bt] := by decide

theorem subAll1_id {l : Str} (h : ¬ sLit <:+: l) : subAll1 l = l := by
  induction l with
  | nil => rfl
  | cons c t ih =>
    cases hm : matchSub1At (c :: t) with
    | some er =>
      obtain ⟨e, rest⟩ := er
      obtain ⟨hline, -, -⟩ := matchSub1At_some hm
      exfalso
      apply h
      rw [hline, sLit_prefix_s1Lit]
      refine ⟨[], [bt] ++ e ++ s1End ++ rest, ?_⟩
      simp [List.append_assoc]
    | none =>
      show scanSub matchSub1At (c :: t) = c :: t
      rw [scanSub_no consumes_matchSub1At hm]
      exact congrArg (c :: ·) (ih (fun hc => h (List.infix_cons hc)))

theorem subAll2_id {l : Str} (h : ¬ sLit <:+: l) : subAll2 l = l := by
  induction l with
  | nil => rfl
  | cons c t ih =>
    cases hm : matchSub2At (c :: t) with
    | some er =>
      obtain ⟨e, rest⟩ := er
      obtain ⟨hline, -, -⟩ := matchSub2At_some hm
      exfalso
      apply h
      rw [hline]
      refine ⟨[], e ++ rbLit ++ rest, ?_⟩
      simp [List.append_assoc]
    | none =>
      show scanSub matchSub2At (c :: t) = c :: t
      rw [scanSub_no consumes_matchSub2At hm]
      exact congrArg (c :: ·) (ih (fun hc => h (List.infix_cons hc)))

theorem subsetEmit_matchSub1At : SubsetEmit matchSub1At := by
  intro s e rest h
  obtain ⟨hline, -, -⟩ := matchSub1At_some h
  constructor
  · intro x hx
    rw [hline]
    simp only [List.mem_append]
    exact Or.inl (Or.inl (Or.inr hx))
  · intro x hx
    rw [hline]
    simp only [List.mem_append]
    exact Or.inr hx

theorem subsetEmit_matchSub2At : SubsetEmit matchSub2At := by
  intro s e rest h
  obtain ⟨hline, -, -⟩ := matchSub2At_some h
  constructor
  · intro x hx
    rw [hline]
    simp only [List.mem_append]
    exact Or.inl (Or.inl (Or.inr hx))
  · intro x hx
    rw [hline]
    simp only [List.mem_append]
    exact Or.inr hx

theorem mem_cleanupG2 {g : Str} {x : Char} (h : x ∈ cleanupG2 g) : x ∈ g := by
  unfold cleanupG2 at h
  rcases mem_replaceAll (by decide) h with h1 | h1
  · rcases mem_replaceAll (by decide) h1 with h2 | h2
    · exact h2
    · exact absurd h2 (List.not_mem_nil x)
  · exact absurd h1 (List.not_mem_nil x)

theorem searchDouble_groups_within {line pre g1 g2 post : Str}
    (h : searchDouble line = some (pre, g1, g2, post)) :
    g1 <:+: line ∧ g2 <:+: line := by
  obtain ⟨hline, -, -, -, -⟩ := searchDouble_some h
  constructor
  · refine ⟨pre ++ litA, litB ++ g2 ++ litC ++ post, ?_⟩
    rw [hline]
    simp [List.append_assoc]
  · refine ⟨pre ++ litA ++ g1 ++ litB, litC ++ post, ?_⟩
    rw [hline]
    simp [List.append_assoc]

theorem searchSingle_group_within {line pre g post : Str}
    (h : searchSingle line = some (pre, g, post)) : g <:+: line := by
  obtain ⟨hline, -, -⟩ := searchSingle_some h
  refine ⟨pre ++ litA, litS ++ post, ?_⟩
  rw [hline]
  simp [List.append_assoc]

theorem fixAllLine_double {line pre g1 g2 post : Str}
    (hsd : searchDouble line = some (pre, g1, g2, post)) :
    fixAllLine line =
      subAll2 (subAll1 (sixSp ++ cLogBt ++ g1 ++ [' '] ++ cleanupG2 g2 ++ endBt)) := by
  obtain ⟨hline, -, -, -, -⟩ := searchDouble_some hsd
  have hlitA : litA = trig1 ++ [bt] := by decide
  have hlitB : litB = [bt] ++ trig2 := by decide
  have ht1 : trig1 <:+: line := by
    refine ⟨pre, [bt] ++ g1 ++ litB ++ g2 ++ litC ++ post, ?_⟩
    rw [hline, hlitA]
    simp [List.append_assoc]
  have ht2 : trig2 <:+: line := by
    refine ⟨pre ++ litA ++ g1 ++ [bt], g2 ++ litC ++ post, ?_⟩
    rw [hline, hlitB]
    simp [List.append_assoc]
  unfold fixAllLine
  rw [if_pos ht1, if_pos ht2, hsd]

theorem fixAllLine_single {line pre g post : Str} (hnd : ¬ trig2 <:+: line)
    (hss : searchSingle line = some (pre, g, post)) :
    fixAllLine line = subAll2 (subAll1 (sixSp ++ cLogBt ++ g ++ endBt)) := by
  obtain ⟨hline, -, -⟩ := searchSingle_some hss
  have hlitA : litA = trig1 ++ [bt] := by decide
  have ht1 : trig1 <:+: line := by
    refine ⟨pre, [bt] ++ g ++ litS ++ post, ?_⟩
    rw [hline, hlitA]
    simp [List.append_assoc]
  unfold fixAllLine
  rw [if_pos ht1, if_neg hnd, hss]

theorem sLit_infix_trig1 : sLit <:+: trig1 := by decide

theorem fixAllLine_id {line : Str} (h : ¬ sLit <:+: line) : fixAllLine line = line := by
  have ht1 : ¬ trig1 <:+: line := fun hc => h (sLit_infix_trig1.trans hc)
  unfold fixAllLine
  rw [if_neg ht1]
  show subAll2 (subAll1 line) = line
  rw [subAll1_id h, subAll2_id h]

theorem cleanupG2_id {g : Str} (h : bt ∉ g) : cleanupG2 g = g := by
  unfold cleanupG2
  rw [replaceAll_id (not_infix_of_mem_not_mem (show bt ∈ s1End by decide) h)]
  rw [replaceAll_id (not_infix_of_mem_not_mem (show bt ∈ [bt] by decide) h)]

theorem not_sLit_out_double {g1 g2 : Str} (h1 : ¬ sLit <:+: g1) (h2 : '(' ∉ g2) :
    ¬ sLit <:+: sixSp ++ cLogBt ++ g1 ++ [' '] ++ g2 ++ endBt := by
  have hg2 : ¬ sLit <:+: g2 := not_infix_of_mem_not_mem (show '(' ∈ sLit by decide) h2
  have hY : ¬ sLit <:+: sixSp ++ cLogBt ++ g1 := by
    refine not_infix_append_of_last (show (sixSp ++ cLogBt).getLast? = some bt by decide)
      (show bt ∉ sLit by decide) (by decide) h1
  have hA' : ¬ sLit <:+: sixSp ++ cLogBt ++ g1 ++ [' '] := by
    refine not_infix_append_of_head (show ([' '] : Str).head? = some ' ' from rfl)
      (show ' ' ∉ sLit by decide) hY (by decide)
  have hA : ¬ sLit <:+: sixSp ++ cLogBt ++ g1 ++ [' '] ++ g2 := by
    refine not_infix_append_of_last ?_ (show ' ' ∉ sLit by decide) hA' hg2
    rw [List.getLast?_concat]
  refine not_infix_append_of_head (show endBt.head? = some bt by decide)
    (show bt ∉ sLit by decide) hA (by decide)

theorem not_sLit_out_single {g : Str} (h : ¬ sLit <:+: g) :
    ¬ sLit <:+: sixSp ++ cLogBt ++ g ++ endBt := by
  have hY : ¬ sLit <:+: sixSp ++ cLogBt ++ g := by
    refine not_infix_append_of_last (show (sixSp ++ cLogBt).getLast? = some bt by decide)
      (show bt ∉ sLit by decide) (by decide) h
  refine not_infix_append_of_head (show endBt.head? = some bt by decide)
    (show bt ∉ sLit by decide) hY (by decide)

theorem fixAllLine_stuck_double {line : Str} (ht1 : trig1 <:+: line)
    (ht2 : trig2 <:+: line) (hsd : searchDouble line = none) :
    fixAllLine line = subAll2 (subAll1 line) := by
  unfold fixAllLine
  rw [if_pos ht1, if_pos ht2, hsd]

theorem fixAllLine_stuck_single {line : Str} (ht1 : trig1 <:+: line)
    (ht2 : ¬ trig2 <:+: line) (hss : searchSingle line = none) :
    fixAllLine line = subAll2 (subAll1 line) := by
  unfold fixAllLine
  rw [if_pos ht1, if_neg ht2, hss]

theorem fixAllLine_else {line : Str} (ht1 : ¬ trig1 <:+: line) :
    fixAllLine line = subAll2 (subAll1 line) := by
  unfold fixAllLine
  rw [if_neg ht1]

theorem mem_subAlls {y : Str} {x : Char} (h : x ∈ subAll2 (subAll1 y)) : x ∈ y :=
  mem_scanSub subsetEmit_matchSub1At (mem_scanSub subsetEmit_matchSub2At h)

theorem mem_fixAllLine {line : Str} {x : Char} (h : x ∈ fixAllLine line) :
    x ∈ line ∨ x ∈ sixSp ++ cLogBt ++ [' '] ++ endBt := by
  by_cases ht1 : trig1 <:+: line
  · by_cases ht2 : trig2 <:+: line
    · cases hsd : searchDouble line with
      | some q =>
        obtain ⟨pre, g1, g2, post⟩ := q
        rw [fixAllLine_double hsd] at h
        have hx := mem_subAlls h
        simp only [List.mem_append] at hx
        rcases hx with ((((hs | hc) | hg1) | hsp) | hg2) | he
        · exact Or.inr (by simp only [List.mem_append]; exact Or.inl (Or.inl (Or.inl hs)))
        · exact Or.inr (by simp only [List.mem_append]; exact Or.inl (Or.inl (Or.inr hc)))
        · exact Or.inl ((searchDouble_groups_within hsd).1.subset hg1)
        · exact Or.inr (by simp only [List.mem_append]; exact Or.inl (Or.inr hsp))
        · exact Or.inl ((searchDouble_groups_within hsd).2.subset (mem_cleanupG2 hg2))
        · exact Or.inr (by simp only [List.mem_append]; exact Or.inr he)
      | none =>
        rw [fixAllLine_stuck_double ht1 ht2 hsd] at h
        exact Or.inl (mem_subAlls h)
    · cases hss : searchSingle line with
      | some q =>
        obtain ⟨pre, g, post⟩ := q
        rw [fixAllLine_single ht2 hss] at h
        have hx := mem_subAlls h
        simp only [List.mem_append] at hx
        rcases hx with ((hs | hc) | hg) | he
        · exact Or.inr (by simp only [List.mem_append]; exact Or.inl (Or.inl (Or.inl hs)))
        · exact Or.inr (by simp only [List.mem_append]; exact Or.inl (Or.inl (Or.inr hc)))
        · exact Or.inl ((searchSingle_group_within hss).subset hg)
        · exact Or.inr (by simp only [List.mem_append]; exact Or.inr he)
      | none =>
        rw [fixAllLine_stuck_single ht1 ht2 hss] at h
        exact Or.inl (mem_subAlls h)
  · rw [fixAllLine_else ht1] at h
    exact Or.inl (mem_subAlls h)

theorem fixAllLine_no_nl {line : Str} (h : '\n' ∉ line) : '\n' ∉ fixAllLine line := by
  intro hcon
  rcases mem_fixAllLine hcon with hl | hlit
  · exact h hl
  · exact absurd hlit (by decide)

theorem pySplit_fix_all (c : Str) :
    pySplit '\n' (fixAllSyntax c) = (pySplit '\n' c).map fixAllLine := by
  unfold fixAllSyntax
  apply pySplit_joinSep
  · intro hcon
    exact pySplit_ne_nil '\n' c (List.map_eq_nil_iff.mp hcon)
  · intro l hl
    obtain ⟨l0, hl0, rfl⟩ := List.mem_map.mp hl
    exact fixAllLine_no_nl (not_mem_pySplit '\n' c l0 hl0)

theorem numLines_fix_all (c : Str) : numLines (fixAllSyntax c) = numLines c := by
  unfold numLines
  rw [pySplit_fix_all, List.length_map]

theorem count_nl_fixEmptyAux (prev : Option Str) (ls : List Str) :
    ((fixEmptyAux prev ls).map (List.count '\n')).sum
      = (ls.map (List.count '\n')).sum := by
  induction ls generalizing prev with
  | nil => rfl
  | cons l0 rest ih =>
    show ((fixEmptyLine prev l0 :: fixEmptyAux (some (fixEmptyLine prev l0)) rest).map
      (List.count '\n')).sum = ((l0 :: rest).map (List.count '\n')).sum
    simp only [List.map_cons, List.sum_cons]
    rw [fixEmptyLine_count_nl, ih]

theorem count_nl_fix_empty (c : Str) :
    (fix_empty_logs c).count '\n' = c.count '\n' := by
  show ((fixEmptyAux none (pyReadLines c)).flatten).count '\n' = c.count '\n'
  rw [List.count_flatten, count_nl_fixEmptyAux, ← List.count_flatten,
    flatten_pyReadLines]

theorem numLines_fix_empty (c : Str) : numLines (fix_empty_logs c) = numLines c := by
  unfold numLines
  rw [length_pySplit, length_pySplit, count_nl_fix_empty]

theorem overlaps_iff_exists {a b : Str} :
    Overlaps a b ↔ ∃ w, w ≠ [] ∧ w <:+ a ∧ w <+: b := by
  constructor
  · rintro ⟨n, hn, hna, hnb, heq⟩
    refine ⟨a.drop (a.length - n), ?_, List.drop_suffix _ a, ?_⟩
    · intro hcon
      have := congrArg List.length hcon
      rw [List.length_drop] at this
      simp only [List.length_nil] at this
      omega
    · rw [heq]
      exact ⟨b.drop n, List.take_append_drop n b⟩
  · rintro ⟨w, hne, hsuf, hpre⟩
    exact overlaps_intro hne hsuf hpre

theorem overlaps_cons {a b : Str} {c : Char} (h : Overlaps a b) :
    Overlaps (c :: a) b := by
  obtain ⟨w, hne, hsuf, hpre⟩ := overlaps_iff_exists.mp h
  exact overlaps_iff_exists.mpr ⟨w, hne, hsuf.trans (List.suffix_cons c a), hpre⟩

theorem replaceAll_step {p r : Str} (hp : p ≠ []) {a t : Str}
    (ha1 : ¬ p <:+: a) (ha2 : ¬ Overlaps a p) :
    replaceAll p r (a ++ p ++ t) = a ++ r ++ replaceAll p r t := by
  induction a with
  | nil =>
    simp only [List.nil_append]
    rw [replaceAll_match hp (List.prefix_append p t)
      (fun hcon => hp (List.append_eq_nil.mp hcon).1), List.drop_left]
  | cons c a' ih =>
    have hstep : (c :: a') ++ p ++ t = c :: (a' ++ p ++ t) := by simp
    rw [hstep]
    have hnp : ¬ p <+: c :: (a' ++ p ++ t) := by
      intro hpre
      rcases le_or_lt p.length (c :: a').length with hle | hlt
      · have hcontra : p <+: c :: a' := by
          refine List.prefix_of_prefix_length_le hpre ?_ hle
          rw [← hstep]
          rw [show (c :: a') ++ p ++ t = (c :: a') ++ (p ++ t) by simp]
          exact List.prefix_append (c :: a') (p ++ t)
        exact ha1 hcontra.isInfix
      · have hfull : (c :: a') <+: p := by
          refine List.prefix_of_prefix_length_le ?_ hpre (Nat.le_of_lt hlt)
          rw [← hstep]
          rw [show (c :: a') ++ p ++ t = (c :: a') ++ (p ++ t) by simp]
          exact List.prefix_append (c :: a') (p ++ t)
        exact ha2 (overlaps_intro (List.cons_ne_nil c a')
          List.suffix_rfl hfull)
    rw [replaceAll_no hnp]
    have ha1' : ¬ p <:+: a' := fun hc => ha1 (List.infix_cons hc)
    have ha2' : ¬ Overlaps a' p := fun hc => ha2 (overlaps_cons hc)
    rw [ih ha1' ha2']
    simp

theorem replaceAll_two {p r : Str} (hp : p ≠ []) {a b c' : Str}
    (ha1 : ¬ p <:+: a) (ha2 : ¬ Overlaps a p) (hb1 : ¬ p <:+: b)
    (hb2 : ¬ Overlaps b p) (hc1 : ¬ p <:+: c') :
    replaceAll p r (a ++ p ++ b ++ p ++ c') = a ++ r ++ b ++ r ++ c' := by
  rw [show a ++ p ++ b ++ p ++ c' = a ++ p ++ (b ++ p ++ c') by simp]
  rw [replaceAll_step hp ha1 ha2, replaceAll_step hp hb1 hb2, replaceAll_id hc1]
  simp

theorem msgFor_success {q : Str}
    (h : kwFound <:+: q ∨ kwCreated <:+: q ∨ kwUpdated <:+: q) :
    msgFor (some q) = repSuccess := by
  unfold msgFor
  dsimp only
  rw [if_pos h]

theorem msgFor_error {q : Str}
    (hno : ¬ (kwFound <:+: q ∨ kwCreated <:+: q ∨ kwUpdated <:+: q))
    (herr : kwError <:+: lowerStr q ∨ kwFail <:+: lowerStr q) :
    msgFor (some q) = repError := by
  unfold msgFor
  dsimp only
  rw [if_neg hno, if_pos herr]

theorem msgFor_default {q : Str}
    (hno : ¬ (kwFound <:+: q ∨ kwCreated <:+: q ∨ kwUpdated <:+: q))
    (hne : ¬ (kwError <:+: lowerStr q ∨ kwFail <:+: lowerStr q)) :
    msgFor (some q) = repProcessing := by
  unfold msgFor
  dsimp only
  rw [if_neg hno, if_neg hne]

theorem fixEmptyAux_get_shape {prev : Option Str} {ls : List Str} {i : Nat} {l : Str}
    (hl : ls.get? i = some l) :
    ∃ prev', (fixEmptyAux prev ls).get? i = some (fixEmptyLine prev' l) := by
  induction ls generalizing prev i with
  | nil => exact absurd hl (by simp)
  | cons l0 rest ih =>
    cases i with
    | zero =>
      obtain rfl : l0 = l := by simpa using hl
      exact ⟨prev, rfl⟩
    | succ i' =>
      have hl' : rest.get? i' = some l := by simpa using hl
      obtain ⟨prev', hq⟩ := @ih (some (fixEmptyLine prev l0)) i' hl'
      exact ⟨prev', by simpa [fixEmptyAux] using hq⟩

/-- Claim C3 (confirmed): in `fix_empty_logs`, an empty logging call on a line
whose preceding line (in the input) contains the substring Found, Created or
Updated is replaced by the literal message
console.log("Operation completed successfully"); every occurrence on the line
is replaced, the rest of the line is preserved, and the written file is the
concatenation of the processed lines. -/
theorem c3_found_created_updated {c : Str} {i : Nat} {prevl l : Str}
    (hprev : (pyReadLines c).get? i = some prevl)
    (hl : (pyReadLines c).get? (i + 1) = some l)
    (hkw : kwFound <:+: prevl ∨ kwCreated <:+: prevl ∨ kwUpdated <:+: prevl)
    (hp : pLog <:+: l) :
    (fixEmptyLines (pyReadLines c)).get? (i + 1)
        = some (replaceAll pLog repSuccess l) ∧
      fix_empty_logs c = (fixEmptyLines (pyReadLines c)).flatten := by
  refine ⟨?_, rfl⟩
  obtain ⟨prev', hq⟩ := @fixEmptyAux_get_shape none (pyReadLines c) i prevl hprev
  have hkwq : kwFound <:+: fixEmptyLine prev' prevl ∨
      kwCreated <:+: fixEmptyLine prev' prevl ∨
      kwUpdated <:+: fixEmptyLine prev' prevl := by
    rcases hkw with h | h | h
    · exact Or.inl (fixEmptyLine_keyword_fwd (by decide)
        ⟨by decide, by decide, by decide, by decide⟩ h)
    · exact Or.inr (Or.inl (fixEmptyLine_keyword_fwd (by decide)
        ⟨by decide, by decide, by decide, by decide⟩ h))
    · exact Or.inr (Or.inr (fixEmptyLine_keyword_fwd (by decide)
        ⟨by decide, by decide, by decide, by decide⟩ h))
  have hstep := fixEmptyAux_get_succ hq hl
  show (fixEmptyAux none (pyReadLines c)).get? (i + 1) = some (replaceAll pLog repSuccess l)
  rw [hstep, fixEmptyLine_pos hp, msgFor_success hkwq]

/-- Witness for C3 at the spec's own example: an empty logging call preceded
by console.log("Created record"); becomes the success message. -/
theorem c3_witness :
    (fixEmptyLines (pyReadLines (("console.log(\"Created record\");\nconsole.log();\n").data))).get? (0 + 1)
        = some (replaceAll pLog repSuccess (("console.log();\n").data)) ∧
      fix_empty_logs (("console.log(\"Created record\");\nconsole.log();\n").data)
        = (fixEmptyLines (pyReadLines (("console.log(\"Created record\");\nconsole.log();\n").data))).flatten :=
  @c3_found_created_updated (("console.log(\"Created record\");\nconsole.log();\n").data) 0
    (("console.log(\"Created record\");\n").data) (("console.log();\n").data)
    (by decide) (by decide) (by decide) (by decide)

/-- Claim C4 counterexample: the success-keyword branch has priority, so a
preceding line that contains both Created and the (case-insensitive) word
fail yields the success message, not console.log("Error logged"). -/
theorem c4_counterexample :
    kwFail <:+: lowerStr (("Created but tests fail\n").data) ∧
      pLog <:+: (("console.log();\n").data) ∧
      (fixEmptyLines (pyReadLines (("Created but tests fail\nconsole.log();\n").data))).get? 1
        = some (("console.log(\"Operation completed successfully\");\n").data) ∧
      (("console.log(\"Operation completed successfully\");\n").data : Str)
        ≠ (("console.log(\"Error logged\");\n").data) := by
  refine ⟨by decide, by decide, by decide, by decide⟩

/-- Claim C4 (amended): an empty logging call whose preceding input line
contains error or fail case-insensitively, and contains none of Found,
Created, Updated, is replaced by console.log("Error logged"). -/
theorem c4_amended {c : Str} {i : Nat} {prevl l : Str}
    (hprev : (pyReadLines c).get? i = some prevl)
    (hl : (pyReadLines c).get? (i + 1) = some l)
    (hkw : kwError <:+: lowerStr prevl ∨ kwFail <:+: lowerStr prevl)
    (hnkw : ¬ kwFound <:+: prevl ∧ ¬ kwCreated <:+: prevl ∧ ¬ kwUpdated <:+: prevl)
    (hp : pLog <:+: l) :
    (fixEmptyLines (pyReadLines c)).get? (i + 1)
      = some (replaceAll pLog repError l) := by
  obtain ⟨prev', hq⟩ := @fixEmptyAux_get_shape none (pyReadLines c) i prevl hprev
  have hkwq : kwError <:+: lowerStr (fixEmptyLine prev' prevl) ∨
      kwFail <:+: lowerStr (fixEmptyLine prev' prevl) := by
    rcases hkw with h | h
    · exact Or.inl (fixEmptyLine_keyword_lower_fwd (by decide)
        ⟨by decide, by decide, by decide, by decide⟩ h)
    · exact Or.inr (fixEmptyLine_keyword_lower_fwd (by decide)
        ⟨by decide, by decide, by decide, by decide⟩ h)
  have hnoq : ¬ (kwFound <:+: fixEmptyLine prev' prevl ∨
      kwCreated <:+: fixEmptyLine prev' prevl ∨
      kwUpdated <:+: fixEmptyLine prev' prevl) := by
    rintro (h | h | h)
    · exact fixEmptyLine_keyword_bwd (by decide)
        ⟨by decide, by decide, by decide, by decide⟩
        ⟨by decide, by decide, by decide, by decide⟩
        ⟨by decide, by decide, by decide, by decide⟩ hnkw.1 h
    · exact fixEmptyLine_keyword_bwd (by decide)
        ⟨by decide, by decide, by decide, by decide⟩
        ⟨by decide, by decide, by decide, by decide⟩
        ⟨by decide, by decide, by decide, by decide⟩ hnkw.2.1 h
    · exact fixEmptyLine_keyword_bwd (by decide)
        ⟨by decide, by decide, by decide, by decide⟩
        ⟨by decide, by decide, by decide, by decide⟩
        ⟨by decide, by decide, by decide, by decide⟩ hnkw.2.2 h
  have hstep := fixEmptyAux_get_succ hq hl
  show (fixEmptyAux none (pyReadLines c)).get? (i + 1) = some (replaceAll pLog repError l)
  rw [hstep, fixEmptyLine_pos hp, msgFor_error hnoq hkwq]

/-- Witness for the amended C4. -/
theorem c4_witness :
    (fixEmptyLines (pyReadLines (("oops failure detected\nconsole.log();\n").data))).get? (0 + 1)
      = some (replaceAll pLog repError (("console.log();\n").data)) :=
  @c4_amended (("oops failure detected\nconsole.log();\n").data) 0
    (("oops failure detected\n").data) (("console.log();\n").data)
    (by decide) (by decide) (by decide) (by decide) (by decide)

/-- Claim C5 counterexample: the loop inspects the previous line after it was
itself rewritten, so an empty logging call preceded (in the input) by another
empty logging call, which became console.log("Error logged") because of a
failure line before it, gets the error message, not
console.log("Processing..."). -/
theorem c5_counterexample :
    (pyReadLines (("fail\nconsole.log();\nconsole.log();\n").data)).get? 1
        = some (("console.log();\n").data) ∧
      ¬ kwFound <:+: (("console.log();\n").data) ∧
      ¬ kwCreated <:+: (("console.log();\n").data) ∧
      ¬ kwUpdated <:+: (("console.log();\n").data) ∧
      ¬ kwError <:+: lowerStr (("console.log();\n").data) ∧
      ¬ kwFail <:+: lowerStr (("console.log();\n").data) ∧
      (fixEmptyLines (pyReadLines (("fail\nconsole.log();\nconsole.log();\n").data))).get? 2
        = some (("console.log(\"Error logged\");\n").data) ∧
      (("console.log(\"Error logged\");\n").data : Str)
        ≠ replaceAll pLog repProcessing (("console.log();\n").data) := by
  refine ⟨by decide, by decide, by decide, by decide, by decide, by decide,
    by decide, by decide⟩

/-- Claim C5 (amended): an empty logging call is replaced by
console.log("Processing...") when it is on the first line, or when the
preceding line as already rewritten by the pass contains none of the
qualifying keywords. -/
theorem c5_amended :
    (∀ (c : Str) (l : Str), (pyReadLines c).get? 0 = some l → pLog <:+: l →
      (fixEmptyLines (pyReadLines c)).get? 0
        = some (replaceAll pLog repProcessing l)) ∧
    (∀ (c : Str) (i : Nat) (q l : Str),
      (fixEmptyLines (pyReadLines c)).get? i = some q →
      ¬ (kwFound <:+: q ∨ kwCreated <:+: q ∨ kwUpdated <:+: q) →
      ¬ (kwError <:+: lowerStr q ∨ kwFail <:+: lowerStr q) →
      (pyReadLines c).get? (i + 1) = some l → pLog <:+: l →
      (fixEmptyLines (pyReadLines c)).get? (i + 1)
        = some (replaceAll pLog repProcessing l)) := by
  constructor
  · intro c l hl hp
    have h0 := @fixEmptyAux_get_zero none (pyReadLines c) l hl
    show (fixEmptyAux none (pyReadLines c)).get? 0 = some (replaceAll pLog repProcessing l)
    rw [h0, fixEmptyLine_pos hp]
    rfl
  · intro c i q l hq hno hne hl hp
    have hstep := fixEmptyAux_get_succ hq hl
    show (fixEmptyAux none (pyReadLines c)).get? (i + 1)
      = some (replaceAll pLog repProcessing l)
    rw [hstep, fixEmptyLine_pos hp, msgFor_default hno hne]

/-- Witness for the amended C5: both the first-line case and the
no-keyword-in-rewritten-previous-line case. -/
theorem c5_witness :
    (fixEmptyLines (pyReadLines (("console.log();\n").data))).get? 0
        = some (replaceAll pLog repProcessing (("console.log();\n").data)) ∧
      (fixEmptyLines (pyReadLines (("abc\nconsole.log();\n").data))).get? (0 + 1)
        = some (replaceAll pLog repProcessing (("console.log();\n").data)) :=
  ⟨c5_amended.1 (("console.log();\n").data) (("console.log();\n").data)
      (by decide) (by decide),
    c5_amended.2 (("abc\nconsole.log();\n").data) 0 (("abc\n").data)
      (("console.log();\n").data) (by decide) (by decide) (by decide)
      (by decide) (by decide)⟩

/-- Claim C10 (confirmed): when a line contains several empty logging calls,
`fix_empty_logs` replaces every one of them with the same message, chosen
once from the preceding line, and preserves all the surrounding text of the
line, including its indentation. -/
theorem c10_all_occurrences {prev : Str} {a b c' : Str}
    (ha1 : ¬ pLog <:+: a) (ha2 : ¬ Overlaps a pLog)
    (hb1 : ¬ pLog <:+: b) (hb2 : ¬ Overlaps b pLog) (hc1 : ¬ pLog <:+: c') :
    fixEmptyLine (some prev) (a ++ pLog ++ b ++ pLog ++ c')
      = a ++ msgFor (some prev) ++ b ++ msgFor (some prev) ++ c' := by
  have hinf : pLog <:+: a ++ pLog ++ b ++ pLog ++ c' :=
    ⟨a, b ++ pLog ++ c', by simp [List.append_assoc]⟩
  rw [fixEmptyLine_pos hinf, replaceAll_two pLog_ne_nil ha1 ha2 hb1 hb2 hc1]

/-- Witness for C10: two empty calls on one indented line after a Found
line; both become the success message and the indentation survives. -/
theorem c10_witness :
    fixEmptyLine (some (("Found 3 items\n").data))
        ((("  ").data) ++ pLog ++ (("; ").data) ++ pLog ++ ((";\n").data))
      = (("  ").data) ++ msgFor (some (("Found 3 items\n").data)) ++ (("; ").data)
          ++ msgFor (some (("Found 3 items\n").data)) ++ ((";\n").data) :=
  @c10_all_occurrences (("Found 3 items\n").data) (("  ").data) (("; ").data)
    ((";\n").data) (by decide) (by decide) (by decide) (by decide) (by decide)

/-- Claim C1 counterexample: on the spec's own example line the repair of
`fixAllSyntax` emits the flat statement with six hard-coded spaces of
indentation, so the line does not become exactly the claimed output; and the
repair of `fix_json_stringify` leaves residual doubled backticks instead of
the flat statement. -/
theorem c1_counterexample :
    fixAllSyntax (("console.log(\x60$\x7bJSON.stringify(\x60Found user\x60)\x7d $\x7bJSON.stringify(user.id)\x7d\x60);").data)
        = (("      console.log(\x60Found user user.id\x60);").data) ∧
      (("      console.log(\x60Found user user.id\x60);").data : Str)
        ≠ (("console.log(\x60Found user user.id\x60);").data) ∧
      fix_json_stringify (("console.log(\x60$\x7bJSON.stringify(\x60Found user\x60)\x7d $\x7bJSON.stringify(user.id)\x7d\x60);").data)
        = (("console.log(\x60\x60Found user\x60 user.id\x60);").data) ∧
      (("console.log(\x60\x60Found user\x60 user.id\x60);").data : Str)
        ≠ (("console.log(\x60Found user user.id\x60);").data) := by
  refine ⟨by decide, by decide, by decide, by decide⟩

/-- Claim C1 (amended): when `fixAllSyntax`'s double-wrapped search matches
a line with groups g1 and g2 such that g1 contains no wrapping-call prefix
and g2 contains no backtick and no opening parenthesis, the line becomes six
spaces followed by the flat statement whose template body is g1, a space,
and g2. -/
theorem c1_amended {c : Str} {i : Nat} {line pre g1 g2 post : Str}
    (hline : (pySplit '\n' c).get? i = some line)
    (hsd : searchDouble line = some (pre, g1, g2, post))
    (hg1 : ¬ sLit <:+: g1) (hg2b : bt ∉ g2) (hg2p : '(' ∉ g2) :
    (pySplit '\n' (fixAllSyntax c)).get? i
      = some (sixSp ++ cLogBt ++ g1 ++ [' '] ++ g2 ++ endBt) := by
  rw [pySplit_fix_all, List.get?_map, hline, Option.map_some']
  have hbody : fixAllLine line = sixSp ++ cLogBt ++ g1 ++ [' '] ++ g2 ++ endBt := by
    rw [fixAllLine_double hsd, cleanupG2_id hg2b]
    have hout := not_sLit_out_double hg1 hg2p
    rw [subAll1_id hout, subAll2_id hout]
  rw [hbody]

/-- Witness for the amended C1, with indentation and surrounding text on the
matched line. -/
theorem c1_witness :
    (pySplit '\n' (fixAllSyntax (("  junk console.log(\x60$\x7bJSON.stringify(\x60Found user\x60)\x7d $\x7bJSON.stringify(user.id)\x7d\x60); trailing\nsecond").data))).get? 0
      = some (sixSp ++ cLogBt ++ (("Found user").data) ++ [' ']
          ++ (("user.id").data) ++ endBt) :=
  @c1_amended
    (("  junk console.log(\x60$\x7bJSON.stringify(\x60Found user\x60)\x7d $\x7bJSON.stringify(user.id)\x7d\x60); trailing\nsecond").data)
    0
    (("  junk console.log(\x60$\x7bJSON.stringify(\x60Found user\x60)\x7d $\x7bJSON.stringify(user.id)\x7d\x60); trailing").data)
    (("  junk ").data) (("Found user").data) (("user.id").data) ((" trailing").data)
    (by decide) (by decide) (by decide) (by decide) (by decide)

/-- Claim C2 counterexample: when the single-wrapped text T itself contains a
wrapped-call artifact, the catch-all substitutions rewrite it further, so the
template body of the produced statement is not T. -/
theorem c2_counterexample :
    fixAllSyntax (("console.log(\x60$\x7bJSON.stringify(\x60$\x7bJSON.stringify(x)\x7d\x60)\x7d\x60);").data)
        = (("      console.log(\x60x\x60);").data) ∧
      (("      console.log(\x60x\x60);").data : Str)
        ≠ (("console.log(\x60$\x7bJSON.stringify(x)\x7d\x60);").data) ∧
      (("      console.log(\x60x\x60);").data : Str)
        ≠ sixSp ++ cLogBt ++ (("$\x7bJSON.stringify(x)\x7d").data) ++ endBt := by
  refine ⟨by decide, by decide, by decide⟩

/-- Claim C2 (amended): when the single-wrapped search of `fixAllSyntax`
matches a line that does not contain the double-pattern trigger, and the
captured text contains no wrapping-call prefix, the line becomes six spaces
followed by the flat statement whose template body is exactly the captured
text. -/
theorem c2_amended {c : Str} {i : Nat} {line pre g post : Str}
    (hline : (pySplit '\n' c).get? i = some line)
    (hnt2 : ¬ trig2 <:+: line)
    (hss : searchSingle line = some (pre, g, post))
    (hg : ¬ sLit <:+: g) :
    (pySplit '\n' (fixAllSyntax c)).get? i
      = some (sixSp ++ cLogBt ++ g ++ endBt) := by
  rw [pySplit_fix_all, List.get?_map, hline, Option.map_some']
  have hbody : fixAllLine line = sixSp ++ cLogBt ++ g ++ endBt := by
    rw [fixAllLine_single hnt2 hss]
    have hout := not_sLit_out_single hg
    rw [subAll1_id hout, subAll2_id hout]
  rw [hbody]

/-- Witness for the amended C2. -/
theorem c2_witness :
    (pySplit '\n' (fixAllSyntax (("  console.log(\x60$\x7bJSON.stringify(\x60Processing request\x60)\x7d\x60);\nrest").data))).get? 0
      = some (sixSp ++ cLogBt ++ (("Processing request").data) ++ endBt) :=
  @c2_amended
    (("  console.log(\x60$\x7bJSON.stringify(\x60Processing request\x60)\x7d\x60);\nrest").data)
    0
    (("  console.log(\x60$\x7bJSON.stringify(\x60Processing request\x60)\x7d\x60);").data)
    (("  ").data) (("Processing request").data) ([])
    (by decide) (by decide) (by decide) (by decide)

/-- Claim C6 counterexample: the `fixAllSyntax` transform is not
idempotent; on nested wrapped-call artifacts a second run strips one more
layer. -/
theorem c6_counterexample :
    fixAllSyntax (fixAllSyntax (("$\x7bJSON.stringify($\x7bJSON.stringify(a)\x7d)\x7d").data))
      ≠ fixAllSyntax (("$\x7bJSON.stringify($\x7bJSON.stringify(a)\x7d)\x7d").data) := by
  decide

/-- Claim C6 (amended): the `fix_empty_logs` transform is idempotent on every
content, but the `fixAllSyntax` transform is not. -/
theorem c6_amended :
    (∀ c : Str, fix_empty_logs (fix_empty_logs c) = fix_empty_logs c) ∧
      fixAllSyntax (fixAllSyntax (("$\x7bJSON.stringify($\x7bJSON.stringify(a)\x7d)\x7d").data))
        ≠ fixAllSyntax (("$\x7bJSON.stringify($\x7bJSON.stringify(a)\x7d)\x7d").data) :=
  ⟨fix_empty_logs_idem, by decide⟩

/-- Claim C7 counterexample: `fix_json_stringify`'s main pattern can span
several lines, so a line containing neither trigger substring, lying inside
the matched region, is still altered. -/
theorem c7_counterexample :
    (pySplit '\n' (("console.log(\x60$\x7bJSON.stringify(a)\x7d\n)\x7dhere\nmore\x60);").data)).get? 1
        = some (((")\x7dhere").data)) ∧
      ¬ sLit <:+: (((")\x7dhere").data) : Str) ∧
      ¬ pLog <:+: (((")\x7dhere").data) : Str) ∧
      (pySplit '\n' (fix_json_stringify (("console.log(\x60$\x7bJSON.stringify(a)\x7d\n)\x7dhere\nmore\x60);").data))).get? 1
        = some ((("here").data)) ∧
      ((("here").data) : Str) ≠ (((")\x7dhere").data)) := by
  refine ⟨by decide, by decide, by decide, by decide, by decide⟩

/-- Claim C7 (amended): a line containing neither the wrapping-call prefix
nor the empty logging call is left unchanged, character for character, by
the per-line transforms of `fixAllSyntax` and `fix_empty_logs`; the
whole-content transform of `fix_json_stringify` can still alter such a
line. -/
theorem c7_amended (prev : Option Str) {l : Str}
    (h1 : ¬ sLit <:+: l) (h2 : ¬ pLog <:+: l) :
    fixAllLine l = l ∧ fixEmptyLine prev l = l :=
  ⟨fixAllLine_id h1, fixEmptyLine_neg h2⟩

/-- Witness for the amended C7. -/
theorem c7_witness :
    fixAllLine (("const total = sum(values);").data) = (("const total = sum(values);").data) ∧
      fixEmptyLine (some (("abc").data)) (("const total = sum(values);").data)
        = (("const total = sum(values);").data) :=
  @c7_amended (some (("abc").data)) (("const total = sum(values);").data)
    (by decide) (by decide)

/-- Claim C8 counterexample: `fix_json_stringify` can delete a newline: the
cleanup of a matched region re-forms a close-paren close-brace artifact, and
the inner backtick pattern then swallows the text, newline included. -/
theorem c8_counterexample :
    numLines (fix_json_stringify (("console.log(\x60$\x7bJSON.stringify(\x60a\x60)\x7d))\x7d\x7d\nq\x60);").data)) = 1 ∧
      numLines (("console.log(\x60$\x7bJSON.stringify(\x60a\x60)\x7d))\x7d\x7d\nq\x60);").data) = 2 := by
  refine ⟨by decide, by decide⟩

/-- Claim C8 (amended): the transforms of `fixAllSyntax` and
`fix_empty_logs` preserve the number of newline-separated lines of the
content; the transform of `fix_json_stringify` does not in general. -/
theorem c8_amended (c : Str) :
    numLines (fixAllSyntax c) = numLines c ∧
      numLines (fix_empty_logs c) = numLines c :=
  ⟨numLines_fix_all c, numLines_fix_empty c⟩

/-- Claim C9 (confirmed): whenever the double or the single repair of
`fixAllSyntax` fires on a line, the whole original line is replaced by the
reconstructed statement prefixed with exactly six spaces (then subjected to
the two catch-all substitutions): the original indentation and any text
before or after the matched statement are discarded, as the result depends
only on the captured groups. -/
theorem c9_replaces_line :
    (∀ line pre g1 g2 post, searchDouble line = some (pre, g1, g2, post) →
      fixAllLine line = subAll2 (subAll1
        (sixSp ++ cLogBt ++ g1 ++ [' '] ++ cleanupG2 g2 ++ endBt))) ∧
    (∀ line pre g post, ¬ trig2 <:+: line →
      searchSingle line = some (pre, g, post) →
      fixAllLine line = subAll2 (subAll1 (sixSp ++ cLogBt ++ g ++ endBt))) :=
  ⟨fun _ _ _ _ _ h => fixAllLine_double h,
    fun _ _ _ _ hn h => fixAllLine_single hn h⟩

/-- Witness for C9 on lines with indentation and surrounding junk. -/
theorem c9_witness :
    fixAllLine (("\tpad console.log(\x60$\x7bJSON.stringify(\x60A\x60)\x7d $\x7bJSON.stringify(b.c)\x7d\x60); tail").data)
        = subAll2 (subAll1 (sixSp ++ cLogBt ++ (("A").data) ++ [' ']
            ++ cleanupG2 (("b.c").data) ++ endBt)) ∧
      fixAllLine (("   console.log(\x60$\x7bJSON.stringify(\x60B\x60)\x7d\x60); end").data)
        = subAll2 (subAll1 (sixSp ++ cLogBt ++ (("B").data) ++ endBt)) :=
  ⟨c9_replaces_line.1
      (("\tpad console.log(\x60$\x7bJSON.stringify(\x60A\x60)\x7d $\x7bJSON.stringify(b.c)\x7d\x60); tail").data)
      (("\tpad ").data) (("A").data) (("b.c").data) ((" tail").data) (by decide),
    c9_replaces_line.2
      (("   console.log(\x60$\x7bJSON.stringify(\x60B\x60)\x7d\x60); end").data)
      (("   ").data) (("B").data) ((" end").data) (by decide) (by decide)⟩

end Mementiq
